import Mathlib

set_option maxHeartbeats 1000000
set_option maxRecDepth 8000

/-!
Shallow embedding of the typed_dsl graph-recording engine (src/dag.h and
src/dag.cpp): the Graph query surface, the intermediate representation with
its dead-store-elimination pass, the Program session layer, and the
Context/Scope stack discipline, together with theorems settling the recorded
claims about them.
-/

/-- Insert an element into a list used as a set unless it is already present,
mirroring std::unordered_set::insert. -/
def insertNew [DecidableEq α] (a : α) (l : List α) : List α :=
  if a ∈ l then l else a :: l

/-- Look a key up in an association list, mirroring std::unordered_map::find. -/
def lookupL (m : List (String × Nat)) (k : String) : Option Nat :=
  match m with
  | [] => none
  | (k2, v) :: rest => if k2 = k then some v else lookupL rest k

/-- Overwrite (or add) the binding of a key, mirroring map[k] = v on
std::unordered_map. -/
def updateLast (m : List (String × Nat)) (k : String) (v : Nat) : List (String × Nat) :=
  match m with
  | [] => [(k, v)]
  | (k2, v2) :: rest => if k2 = k then (k, v) :: rest else (k2, v2) :: updateLast rest k v

/-- Check whether the pattern occurs at the head of the text. -/
def matchesAt : List Char → List Char → Bool
  | [], _ => true
  | _ :: _, [] => false
  | p :: ps, c :: cs => p == c && matchesAt ps cs

/-- Check whether the pattern occurs anywhere in the text. -/
def hasSubstr (pat : List Char) : List Char → Bool
  | [] => matchesAt pat []
  | c :: cs => matchesAt pat (c :: cs) || hasSubstr pat cs

/-- Mirrors s.find(pat) != std::string::npos. -/
def containsSubstr (s pat : String) : Bool :=
  hasSubstr pat.toList s.toList

/-- Pair the elements of a list with their indices, starting from k. -/
def idxZip (k : Nat) : List α → List (Nat × α)
  | [] => []
  | a :: as => (k, a) :: idxZip (k + 1) as

/-- One node of the finished graph (struct Graph::NodeInfo). -/
structure NodeInfo where
  name : String
  op_class : String
  inputs : List String
  outputs : List String
deriving DecidableEq

/-- The output artifact (class Graph): the surviving operation nodes in
recording order plus the placeholder names that feed them. -/
structure Graph where
  nodes : List NodeInfo
  placeholders : List String
deriving DecidableEq

/-- Graph::add_node: the node name is the op class suffixed with the current
node count; placeholder inputs are accumulated into the placeholder set. -/
def Graph.add_node (g : Graph) (op_class : String)
    (inputs outputs placeholder_inputs : List String) : Graph :=
  let op_name := op_class ++ "_" ++ toString g.nodes.length
  { nodes := g.nodes ++
      [{ name := op_name, op_class := op_class, inputs := inputs, outputs := outputs }],
    placeholders := placeholder_inputs.foldl (fun ps i => insertNew i ps) g.placeholders }

/-- Graph::is_placeholder. -/
def Graph.is_placeholder (g : Graph) (var_name : String) : Bool :=
  decide (var_name ∈ g.placeholders)

/-- Graph::node_count. -/
def Graph.node_count (g : Graph) : Nat := g.nodes.length

/-- Graph::has_node. -/
def Graph.has_node (g : Graph) (node_name : String) : Bool :=
  g.nodes.any (fun node => node.name == node_name)

/-- Graph::consumes (single-input overload): the first node with a matching
name is queried; when no node matches, the result is false. -/
def Graph.consumes (g : Graph) (node_name input : String) : Bool :=
  match g.nodes.find? (fun node => node.name == node_name) with
  | some node => node.inputs.contains input
  | none => false

/-- Graph::consumes (list-of-inputs overload). -/
def Graph.consumesAll (g : Graph) (node_name : String) (inputs : List String) : Bool :=
  match g.nodes.find? (fun node => node.name == node_name) with
  | some node => inputs.all (fun input => node.inputs.contains input)
  | none => false

/-- Graph::produces. -/
def Graph.produces (g : Graph) (node_name output : String) : Bool :=
  match g.nodes.find? (fun node => node.name == node_name) with
  | some node => node.outputs.contains output
  | none => false

/-- Join helper of Graph::to_string: elements separated by the delimiter. -/
def joinStr (vec : List String) (delimiter : String) : String :=
  match vec with
  | [] => ""
  | [s] => s
  | s :: rest => s ++ delimiter ++ joinStr rest delimiter

/-- Graph::to_string (src/dag.cpp): the first node with a matching name is
rendered; when no node matches, the empty string is returned. -/
def Graph.to_string (g : Graph) (node_name : String) : String :=
  match g.nodes.find? (fun node => node.name == node_name) with
  | some node =>
    "\x7b" ++ joinStr node.inputs (", ") ++ "\x7d -> \x7b" ++ node.name ++
      "\x7d -> \x7b" ++ joinStr node.outputs (", ") ++ "\x7d"
  | none => ""

/-- IR node kinds (enum class IRNodeType). -/
inductive IRNodeType where
  | PLACEHOLDER
  | OPERATION
  | VARIABLE
deriving DecidableEq

/-- One recorded operation (struct IRNode). -/
structure IRNode where
  type : IRNodeType
  name : String
  op_class : String
  inputs : List String
  outputs : List String
  is_dead : Bool
deriving DecidableEq

/-- IRNode operation constructor. The source derives the numeric suffix of
the name from a process-global counter; it is modelled here as an explicit
argument threaded through the owning IR. The name is never consulted by DCE
or by graph construction. -/
def IRNode.mkOperation (next_id : Nat) (op : String) (ins outs : List String) : IRNode :=
  { type := IRNodeType.OPERATION, name := op ++ "_" ++ toString next_id,
    op_class := op, inputs := ins, outputs := outs, is_dead := false }

/-- IRNode::create_placeholder: built through the operation constructor (which
consumes a counter value) and then retyped and renamed. -/
def IRNode.create_placeholder (next_id : Nat) (name : String) : IRNode :=
  let node := IRNode.mkOperation next_id ("") [] [name]
  { node with type := IRNodeType.PLACEHOLDER, name := name }

/-- The mutable intermediate representation (class IR). -/
structure IR where
  nodes : List IRNode
  var_to_last_def : List (String × Nat)
  placeholders : List String
  next_id : Nat
deriving DecidableEq

/-- IR::add_node: every output is remapped to the index the node will occupy,
then the node is appended. -/
def IR.add_node (ir : IR) (node : IRNode) : IR :=
  { ir with
    var_to_last_def :=
      node.outputs.foldl (fun m out => updateLast m out ir.nodes.length) ir.var_to_last_def,
    nodes := ir.nodes ++ [node] }

/-- Commit one operation record, consuming one counter value for its name. -/
def IR.add_node_op (ir : IR) (op : String) (ins outs : List String) : IR :=
  { ir.add_node (IRNode.mkOperation ir.next_id op ins outs) with next_id := ir.next_id + 1 }

/-- IR::add_placeholder. -/
def IR.add_placeholder (ir : IR) (name : String) : IR :=
  let ir2 := { ir with placeholders := insertNew name ir.placeholders }
  { ir2.add_node (IRNode.create_placeholder ir2.next_id name) with next_id := ir2.next_id + 1 }

/-- The two live sets maintained by IR::dead_store_elimination. -/
structure DSEState where
  live_nodes : List Nat
  live_vars : List String
deriving DecidableEq

/-- One entry of the root-collection loop of dead_store_elimination: a
var_to_last_def entry whose variable is a placeholder or whose name does not
contain the internal sentinel makes the variable and its last-defining index
live. -/
def dseRootStep (ir : IR) (s : DSEState) (vi : String × Nat) : DSEState :=
  if vi.1 ∈ ir.placeholders || !(containsSubstr vi.1 ("__var")) then
    { live_nodes := insertNew vi.2 s.live_nodes, live_vars := insertNew vi.1 s.live_vars }
  else s

/-- Root collection at the start of dead_store_elimination. -/
def dseInit (ir : IR) : DSEState :=
  ir.var_to_last_def.foldl (dseRootStep ir) { live_nodes := [], live_vars := [] }

/-- Processing of one input of a live record: a previously unseen input
becomes live and, when it has a last definition, that record index is added
to the live nodes and the pass is flagged as changed. -/
def dseInputStep (lastDef : List (String × Nat)) (sc2 : DSEState × Bool) (input : String) :
    DSEState × Bool :=
  if input ∈ sc2.1.live_vars then sc2
  else
    let s2 : DSEState := { sc2.1 with live_vars := input :: sc2.1.live_vars }
    match lookupL lastDef input with
    | some j => ({ s2 with live_nodes := insertNew j s2.live_nodes }, true)
    | none => (s2, sc2.2)

/-- Body of one pass for one live record: walk all of its inputs. -/
def dseNodeStep (lastDef : List (String × Nat)) (inputs : List String)
    (sc : DSEState × Bool) : DSEState × Bool :=
  inputs.foldl (dseInputStep lastDef) sc

/-- One visit of the reverse sweep: only records currently live propagate. -/
def dseVisit (lastDef : List (String × Nat)) (sc : DSEState × Bool) (p : Nat × IRNode) :
    DSEState × Bool :=
  if p.1 ∈ sc.1.live_nodes then dseNodeStep lastDef p.2.inputs sc else sc

/-- One reverse sweep over all records. -/
def dsePass (nodes : List IRNode) (lastDef : List (String × Nat)) (s : DSEState) :
    DSEState × Bool :=
  (idxZip 0 nodes).reverse.foldl (dseVisit lastDef) (s, false)

/-- The do/while loop of dead_store_elimination: repeat sweeps until one
reports no change; the fuel bounds the number of sweeps and is chosen large
enough that the fixpoint is always reached. -/
def dseLoop (nodes : List IRNode) (lastDef : List (String × Nat)) : Nat → DSEState → DSEState
  | 0, s => s
  | fuel + 1, s =>
    let sc := dsePass nodes lastDef s
    if sc.2 then dseLoop nodes lastDef fuel sc.1 else sc.1

/-- Every variable the sweeps can ever insert into live_vars. -/
def dseVarBound (ir : IR) : List String :=
  ir.var_to_last_def.map Prod.fst ++ (ir.nodes.map (fun n => n.inputs)).flatten

/-- Sweep budget: strictly more than the number of distinct insertable
variables, so at least one sweep must report no change before it runs out. -/
def dseFuel (ir : IR) : Nat := (dseVarBound ir).toFinset.card + 1

/-- Final loop of dead_store_elimination: a record is dead exactly when its
index is not live. -/
def markDead (live : List Nat) : Nat → List IRNode → List IRNode
  | _, [] => []
  | i, n :: ns => { n with is_dead := decide (i ∉ live) } :: markDead live (i + 1) ns

/-- The live sets after the whole fixpoint loop. -/
def dseFinal (ir : IR) : DSEState :=
  dseLoop ir.nodes ir.var_to_last_def (dseFuel ir) (dseInit ir)

/-- IR::dead_store_elimination. -/
def IR.dead_store_elimination (ir : IR) : IR :=
  { ir with nodes := markDead (dseFinal ir).live_nodes 0 ir.nodes }

/-- IR::optimize. -/
def IR.optimize (ir : IR) : IR := ir.dead_store_elimination

/-- IR::get_placeholder_inputs: the inputs that are declared placeholders. -/
def IR.get_placeholder_inputs (ir : IR) (inputs : List String) : List String :=
  inputs.filter (fun input => decide (input ∈ ir.placeholders))

/-- One step of IR::to_graph: a live operation record becomes a graph node,
carrying its placeholder inputs into the graph's placeholder set; every other
record is skipped. -/
def toGraphStep (ir : IR) (g : Graph) (node : IRNode) : Graph :=
  if !node.is_dead && node.type == IRNodeType.OPERATION then
    g.add_node node.op_class node.inputs node.outputs (ir.get_placeholder_inputs node.inputs)
  else g

/-- IR::to_graph: walk the records in recording order. -/
def IR.to_graph (ir : IR) : Graph :=
  ir.nodes.foldl (toGraphStep ir) { nodes := [], placeholders := [] }

/-- A build session (class Program). -/
structure Program where
  ir : IR
  var_names : List String
deriving DecidableEq

/-- Program::graph: optimize a copy of the IR and convert it. -/
def Program.graph (p : Program) : Graph :=
  let ir_copy := p.ir
  (ir_copy.optimize).to_graph

/-- Program::graph viewed as a state operation: the returned graph together
with the session state after the call (the source method is const and
operates on a copy of the IR). -/
def Program.graphOp (p : Program) : Graph × Program :=
  (p.graph, p)

/-- Message of the duplicate-name error. -/
def dupNameMsg (name : String) : String := "Var name already exists: " ++ name

/-- Program::register_var_name: a non-sentinel name that is already present
fails; otherwise the name is recorded. The throw happens before any
mutation. -/
def Program.register_var_name (p : Program) (name : String) : Except String Program :=
  if name ≠ ("__var") ∧ name ∈ p.var_names then Except.error (dupNameMsg name)
  else Except.ok { p with var_names := insertNew name p.var_names }

/-- Program::register_placeholder. -/
def Program.register_placeholder (p : Program) (name : String) : Except String Program :=
  match p.register_var_name name with
  | Except.error e => Except.error e
  | Except.ok p2 => Except.ok { p2 with ir := p2.ir.add_placeholder name }

/-- Program::add with the pending node already taken from the handle. -/
def Program.add (p : Program) (op : String) (ins outs : List String) : Program :=
  { p with ir := p.ir.add_node_op op ins outs }

/-- One recording action against a session. -/
inductive Cmd where
  | regVar (name : String)
  | regPlaceholder (name : String)
  | commit (op : String) (ins outs : List String)
deriving DecidableEq

/-- Run one action; a failed registration throws in the source before any
mutation, leaving the Program unchanged, which is modelled by returning the
state unmodified. -/
def Program.step (p : Program) : Cmd → Program
  | Cmd.regVar name =>
    match p.register_var_name name with
    | Except.ok p2 => p2
    | Except.error _ => p
  | Cmd.regPlaceholder name =>
    match p.register_placeholder name with
    | Except.ok p2 => p2
    | Except.error _ => p
  | Cmd.commit op ins outs => p.add op ins outs

/-- A freshly constructed Program. -/
def Program.initial : Program :=
  { ir := { nodes := [], var_to_last_def := [], placeholders := [], next_id := 0 },
    var_names := [] }

/-- Run a recording script against a session. -/
def Program.runCmds (p : Program) (cmds : List Cmd) : Program :=
  cmds.foldl Program.step p

/-- A session together with the per-operator counters of Op::get_next_var_name
(static in the source, threaded here). -/
structure Session where
  prog : Program
  op_counters : List (String × Nat)
deriving DecidableEq

def Session.initial : Session := { prog := Program.initial, op_counters := [] }

/-- Op::get_next_var_name: read the per-operator counter, then bump it. -/
def Session.get_next_var_name (s : Session) (op_name : String) : String × Session :=
  let k := (lookupL s.op_counters op_name).getD 0
  (op_name ++ "_" ++ toString k ++ "/output",
   { s with op_counters := updateLast s.op_counters op_name (k + 1) })

/-- Var(name) constructor for an explicitly named variable: registers the
name with the current program. -/
def Session.declareVar (name : String) (s : Session) : Session :=
  { s with prog := s.prog.step (Cmd.regVar name) }

/-- Var(placeholder, name) constructor. -/
def Session.declarePlaceholder (name : String) (s : Session) : Session :=
  { s with prog := s.prog.step (Cmd.regPlaceholder name) }

/-- Var::operator=(const Var&) when the source handle carries no pending node:
a copy record from the source name to the target name is committed. -/
def Session.assignCopy (target src : String) (s : Session) : Session :=
  { s with prog := s.prog.add ("copy") [src] [target] }

/-- target = op(arguments): Op::operator() creates a freshly named result
handle (whose name is registered) holding a pending record; move assignment
into the target rewrites the outputs to the target name and commits. -/
def Session.assignOpCall (target op : String) (args : List String) (s : Session) : Session :=
  let ns := s.get_next_var_name op
  let s3 := { ns.2 with prog := ns.2.prog.step (Cmd.regVar ns.1) }
  { s3 with prog := s3.prog.add op args [target] }

/-- Context::push_program over an explicit stack: pushing a null program
fails, otherwise the program is pushed. -/
def Context.push_program (stack : List Nat) (prog : Option Nat) : Except String (List Nat) :=
  match prog with
  | none => Except.error ("Cannot push null program to context")
  | some p => Except.ok (p :: stack)

/-- Context::pop_program: popping an empty stack fails. -/
def Context.pop_program (stack : List Nat) : Except String (List Nat) :=
  match stack with
  | [] => Except.error ("Cannot pop from empty program stack")
  | _ :: rest => Except.ok rest

/-- The RAII guard (Context::Scope): only its active flag matters. -/
structure Scope where
  active : Bool
deriving DecidableEq

/-- Scope::Scope(Program*): rejects a null program, otherwise pushes and
arms the guard. -/
def Scope.init (prog : Option Nat) (stack : List Nat) : Except String (Scope × List Nat) :=
  match prog with
  | none => Except.error ("Cannot create scope with null program")
  | some _ =>
    match Context.push_program stack prog with
    | Except.error e => Except.error e
    | Except.ok st2 => Except.ok ({ active := true }, st2)

/-- Scope::~Scope: pops only when the guard is still active. -/
def Scope.dtor (s : Scope) (stack : List Nat) : Except String (List Nat) :=
  if s.active then Context.pop_program stack else Except.ok stack

/-- Scope move constructor: returns (new guard, old guard after the move). -/
def Scope.moveCtor (other : Scope) : Scope × Scope :=
  ({ active := other.active }, { active := false })

/-- Scope move assignment (self distinct from other): releases self first
when it is active, then transfers the flag. -/
def Scope.moveAssign (self other : Scope) (stack : List Nat) :
    Except String (Scope × Scope × List Nat) :=
  match (if self.active then Context.pop_program stack else Except.ok stack) with
  | Except.error e => Except.error e
  | Except.ok st2 => Except.ok ({ active := other.active }, { active := false }, st2)

/-- Apply k move constructions starting from a guard, collecting the
moved-from guards in order and returning the final live guard. -/
def moveChain : Scope → Nat → List Scope × Scope
  | s, 0 => ([], s)
  | s, k + 1 =>
    let ns := Scope.moveCtor s
    let rest := moveChain ns.1 k
    (ns.2 :: rest.1, rest.2)

/-- Destruct a list of guards in order against a stack. -/
def foldDtor (guards : List Scope) (stack : List Nat) : Except String (List Nat) :=
  match guards with
  | [] => Except.ok stack
  | g :: rest =>
    match Scope.dtor g stack with
    | Except.error e => Except.error e
    | Except.ok st2 => foldDtor rest st2

/-- Transcription of claim C1 over a Graph: every consumed identifier is a
graph placeholder or is produced by exactly one strictly earlier graph node. -/
def livenessSoundSpec (g : Graph) : Prop :=
  ∀ p ∈ idxZip 0 g.nodes, ∀ v ∈ p.2.inputs,
    g.is_placeholder v = true ∨
    ((idxZip 0 g.nodes).filter
      (fun q => decide (q.1 < p.1) && q.2.outputs.contains v)).length = 1

/-- Transcription of the root notion of claim C2: a placeholder, or a
non-internal identifier appearing in the outputs of some record. -/
def isRootSpec (ir : IR) (v : String) : Bool :=
  decide (v ∈ ir.placeholders) ||
    (!(containsSubstr v ("__var")) && ir.nodes.any (fun r => r.outputs.contains v))

instance (g : Graph) : Decidable (livenessSoundSpec g) := by
  unfold livenessSoundSpec
  exact inferInstance

/-- Membership after a set-style insert. -/
theorem mem_insertNew [DecidableEq α] {a b : α} {l : List α} :
    a ∈ insertNew b l ↔ a = b ∨ a ∈ l := by
  unfold insertNew
  split
  · next hb =>
    constructor
    · exact fun h => Or.inr h
    · rintro (rfl | h)
      · exact hb
      · exact h
  · exact List.mem_cons

/-- The inserted element is present. -/
theorem self_mem_insertNew [DecidableEq α] (b : α) (l : List α) : b ∈ insertNew b l := by
  rw [mem_insertNew]
  exact Or.inl rfl

/-- Insertion only adds. -/
theorem subset_insertNew [DecidableEq α] (b : α) (l : List α) : l ⊆ insertNew b l := by
  intro x hx
  rw [mem_insertNew]
  exact Or.inr hx

/-- Set-style insertion preserves distinctness. -/
theorem nodup_insertNew [DecidableEq α] {b : α} {l : List α} (h : l.Nodup) :
    (insertNew b l).Nodup := by
  unfold insertNew
  split
  · exact h
  · next hb =>
    rw [List.nodup_cons]
    exact ⟨hb, h⟩

/-- A successful lookup exposes its association pair. -/
theorem lookupL_mem {m : List (String × Nat)} {k : String} {j : Nat}
    (h : lookupL m k = some j) : (k, j) ∈ m := by
  induction m with
  | nil => simp [lookupL] at h
  | cons p rest ih =>
    obtain ⟨k2, v⟩ := p
    by_cases hk : k2 = k
    · subst hk
      simp [lookupL] at h
      subst h
      exact List.mem_cons_self _ _
    · simp [lookupL, hk] at h
      exact List.mem_cons_of_mem _ (ih h)

/-- With distinct keys, every association pair is found by lookup. -/
theorem mem_lookupL {m : List (String × Nat)} {k : String} {j : Nat}
    (hn : (m.map Prod.fst).Nodup) (h : (k, j) ∈ m) : lookupL m k = some j := by
  induction m with
  | nil => cases h
  | cons p rest ih =>
    obtain ⟨k2, v⟩ := p
    simp only [List.map_cons, List.nodup_cons] at hn
    rcases List.mem_cons.mp h with h1 | h1
    · cases h1
      simp [lookupL]
    · have hk : k2 ≠ k := by
        intro he
        subst he
        exact hn.1 (List.mem_map_of_mem Prod.fst h1)
      simp only [lookupL, if_neg hk]
      exact ih hn.2 h1

/-- A lookup fails exactly when the key is absent. -/
theorem lookupL_eq_none_iff {m : List (String × Nat)} {k : String} :
    lookupL m k = none ↔ k ∉ m.map Prod.fst := by
  induction m with
  | nil => simp [lookupL]
  | cons p rest ih =>
    obtain ⟨k2, v⟩ := p
    by_cases hk : k2 = k
    · subst hk
      simp [lookupL]
    · simp [lookupL, hk, ih, Ne.symm hk]

/-- A lookup succeeds exactly when the key is present. -/
theorem lookupL_some_iff {m : List (String × Nat)} {k : String} :
    (∃ j, lookupL m k = some j) ↔ k ∈ m.map Prod.fst := by
  constructor
  · rintro ⟨j, hj⟩
    exact List.mem_map_of_mem Prod.fst (lookupL_mem hj)
  · intro hk
    cases hl : lookupL m k with
    | some j => exact ⟨j, rfl⟩
    | none => exact absurd hk (lookupL_eq_none_iff.mp hl)

/-- Updating one key rebinds it and leaves every other key alone. -/
theorem lookupL_updateLast (m : List (String × Nat)) (k : String) (v : Nat) (k' : String) :
    lookupL (updateLast m k v) k' = if k' = k then some v else lookupL m k' := by
  induction m with
  | nil =>
    by_cases h : k = k'
    · subst h
      simp [updateLast, lookupL]
    · simp only [updateLast, lookupL, if_neg h]
      rw [if_neg (fun he : k' = k => h he.symm)]
  | cons p rest ih =>
    obtain ⟨k2, v2⟩ := p
    by_cases h2 : k2 = k
    · subst h2
      by_cases h3 : k2 = k'
      · subst h3
        simp [updateLast, lookupL]
      · simp only [updateLast, lookupL, if_pos rfl, if_neg h3]
        rw [if_neg (fun he : k' = k2 => h3 he.symm)]
    · by_cases h3 : k2 = k'
      · subst h3
        simp only [updateLast, lookupL, if_neg h2, if_pos rfl]
        simp
      · simp [updateLast, lookupL, h2, h3, ih]

/-- Updated key list: unchanged when the key existed, appended otherwise. -/
theorem keys_updateLast (m : List (String × Nat)) (k : String) (v : Nat) :
    (updateLast m k v).map Prod.fst =
      if k ∈ m.map Prod.fst then m.map Prod.fst else m.map Prod.fst ++ [k] := by
  induction m with
  | nil => simp [updateLast]
  | cons p rest ih =>
    obtain ⟨k2, v2⟩ := p
    by_cases h2 : k2 = k
    · subst h2
      simp [updateLast]
    · simp only [updateLast, if_neg h2, List.map_cons, ih, List.mem_cons]
      by_cases hk : k ∈ rest.map Prod.fst
      · simp [hk, h2]
      · simp only [hk, h2, or_false, if_false]
        rw [if_neg (fun he : k = k2 => h2 he.symm)]
        simp

/-- Rebinding a key preserves key distinctness. -/
theorem keys_updateLast_nodup {m : List (String × Nat)} {k : String} {v : Nat}
    (h : (m.map Prod.fst).Nodup) : ((updateLast m k v).map Prod.fst).Nodup := by
  rw [keys_updateLast]
  split
  · exact h
  · next hk =>
    rw [List.nodup_append]
    exact ⟨h, List.nodup_singleton k, by simpa using hk⟩

/-- Lookup after folding a batch of rebindings to a common index. -/
theorem lookupL_foldl_updateLast (outs : List String) (m : List (String × Nat)) (n : Nat)
    (v : String) :
    lookupL (outs.foldl (fun m2 out => updateLast m2 out n) m) v =
      if v ∈ outs then some n else lookupL m v := by
  induction outs generalizing m with
  | nil => simp
  | cons o rest ih =>
    simp only [List.foldl_cons]
    rw [ih]
    by_cases hv : v ∈ rest
    · simp [hv]
    · by_cases ho : v = o
      · subst ho
        simp [hv, lookupL_updateLast]
      · simp [hv, ho, lookupL_updateLast]

/-- Folded rebindings preserve key distinctness. -/
theorem keys_foldl_updateLast_nodup (outs : List String) {m : List (String × Nat)} (n : Nat)
    (h : (m.map Prod.fst).Nodup) :
    ((outs.foldl (fun m2 out => updateLast m2 out n) m).map Prod.fst).Nodup := by
  induction outs generalizing m with
  | nil => exact h
  | cons o rest ih => exact ih (keys_updateLast_nodup h)

/-- Element of the indexed list at a position. -/
theorem idxZip_getElem (k : Nat) (l : List α) (j : Nat) :
    (idxZip k l)[j]? = (l[j]?).map (fun a => (k + j, a)) := by
  induction l generalizing k j with
  | nil => simp [idxZip]
  | cons a as ih =>
    cases j with
    | zero => simp [idxZip]
    | succ j2 =>
      have h1 : k + 1 + j2 = k + (j2 + 1) := by omega
      simp only [idxZip, List.getElem?_cons_succ]
      rw [ih (k + 1) j2, h1]

/-- Membership in the zero-based indexed list. -/
theorem mem_idxZip_iff {l : List α} {p : Nat × α} :
    p ∈ idxZip 0 l ↔ l[p.1]? = some p.2 := by
  rw [List.mem_iff_getElem?]
  constructor
  · rintro ⟨j, hj⟩
    rw [idxZip_getElem] at hj
    cases hl : l[j]? with
    | none => simp [hl] at hj
    | some a =>
      rw [hl] at hj
      simp only [Option.map_some', Option.some_inj] at hj
      subst hj
      simpa using hl
  · intro hp
    refine ⟨p.1, ?_⟩
    rw [idxZip_getElem, hp]
    simp

/-- Marked node list, element view. -/
theorem markDead_getElem (live : List Nat) (k : Nat) (l : List IRNode) (j : Nat) :
    (markDead live k l)[j]? =
      (l[j]?).map (fun n => { n with is_dead := decide ((k + j) ∉ live) }) := by
  induction l generalizing k j with
  | nil => simp [markDead]
  | cons a as ih =>
    cases j with
    | zero => simp [markDead]
    | succ j2 =>
      have h1 : k + 1 + j2 = k + (j2 + 1) := by omega
      simp only [markDead, List.getElem?_cons_succ]
      rw [ih (k + 1) j2, h1]

/-- Marking preserves length. -/
theorem markDead_length (live : List Nat) (k : Nat) (l : List IRNode) :
    (markDead live k l).length = l.length := by
  induction l generalizing k with
  | nil => rfl
  | cons a as ih => simp [markDead, ih]

/-- Getting inside the left part of an append. -/
theorem getElem_append_lt {l l2 : List α} {i : Nat} (h : i < l.length) :
    (l ++ l2)[i]? = l[i]? := by
  rw [List.getElem?_append]
  simp [h]

/-- Getting the appended element. -/
theorem getElem_append_len (l : List α) (a : α) : (l ++ [a])[l.length]? = some a := by
  simp

/-- Splitting a get over a one-element append. -/
theorem getElem_append_singleton {l : List α} {a : α} {j : Nat} {r : α}
    (h : (l ++ [a])[j]? = some r) :
    (j < l.length ∧ l[j]? = some r) ∨ (j = l.length ∧ r = a) := by
  rw [List.getElem?_append] at h
  split at h
  · next hlt => exact Or.inl ⟨hlt, h⟩
  · next hge =>
    cases hc : j - l.length with
    | zero =>
      rw [hc] at h
      simp only [List.getElem?_cons_zero, Option.some_inj] at h
      exact Or.inr ⟨by omega, h.symm⟩
    | succ m =>
      rw [hc] at h
      simp at h

/-- Gets only succeed within bounds. -/
theorem getElem_lt_length {l : List α} {i : Nat} {a : α} (h : l[i]? = some a) :
    i < l.length := by
  exact (List.getElem?_eq_some.mp h).1

/-- The invariant every reachable intermediate representation satisfies:
distinct map keys, var_to_last_def pointing at the most recent producing
record, every produced variable and every placeholder having an entry, and
every record being an operation or a well-formed placeholder record. -/
structure IRInv (ir : IR) : Prop where
  keysNodup : (ir.var_to_last_def.map Prod.fst).Nodup
  lastDef_sound : ∀ (v : String) (j : Nat), lookupL ir.var_to_last_def v = some j →
    ∃ r : IRNode, ir.nodes[j]? = some r ∧ v ∈ r.outputs ∧
      ∀ (k : Nat) (rk : IRNode), ir.nodes[k]? = some rk → v ∈ rk.outputs → k ≤ j
  lastDef_complete : ∀ (j : Nat) (r : IRNode), ir.nodes[j]? = some r → ∀ v ∈ r.outputs,
    ∃ i, lookupL ir.var_to_last_def v = some i
  placeholders_defined : ∀ v ∈ ir.placeholders, ∃ i, lookupL ir.var_to_last_def v = some i
  types_ok : ∀ r ∈ ir.nodes, r.type = IRNodeType.OPERATION ∨
    (r.type = IRNodeType.PLACEHOLDER ∧ r.outputs = [r.name] ∧ r.name ∈ ir.placeholders ∧
      r.inputs = [])

/-- Lookup in the map after IR::add_node. -/
theorem add_node_lookup (ir : IR) (node : IRNode) (v : String) :
    lookupL (ir.add_node node).var_to_last_def v =
      if v ∈ node.outputs then some ir.nodes.length else lookupL ir.var_to_last_def v := by
  simp only [IR.add_node]
  exact lookupL_foldl_updateLast node.outputs ir.var_to_last_def ir.nodes.length v

/-- Node list after IR::add_node. -/
theorem add_node_nodes (ir : IR) (node : IRNode) :
    (ir.add_node node).nodes = ir.nodes ++ [node] := rfl

/-- Placeholder set after IR::add_node. -/
theorem add_node_placeholders (ir : IR) (node : IRNode) :
    (ir.add_node node).placeholders = ir.placeholders := rfl

/-- The invariant survives appending one well-formed record. -/
theorem IRInv_add_node (ir : IR) (node : IRNode)
    (hk : (ir.var_to_last_def.map Prod.fst).Nodup)
    (hs : ∀ (v : String) (j : Nat), lookupL ir.var_to_last_def v = some j →
      ∃ r : IRNode, ir.nodes[j]? = some r ∧ v ∈ r.outputs ∧
        ∀ (k : Nat) (rk : IRNode), ir.nodes[k]? = some rk → v ∈ rk.outputs → k ≤ j)
    (hc : ∀ (j : Nat) (r : IRNode), ir.nodes[j]? = some r → ∀ v ∈ r.outputs,
      ∃ i, lookupL ir.var_to_last_def v = some i)
    (hph : ∀ v ∈ ir.placeholders, v ∈ node.outputs ∨ ∃ i, lookupL ir.var_to_last_def v = some i)
    (hty : ∀ r ∈ ir.nodes, r.type = IRNodeType.OPERATION ∨
      (r.type = IRNodeType.PLACEHOLDER ∧ r.outputs = [r.name] ∧ r.name ∈ ir.placeholders ∧
        r.inputs = []))
    (ht : node.type = IRNodeType.OPERATION ∨
      (node.type = IRNodeType.PLACEHOLDER ∧ node.outputs = [node.name] ∧
        node.name ∈ ir.placeholders ∧ node.inputs = [])) :
    IRInv (ir.add_node node) := by
  constructor
  · simp only [IR.add_node]
    exact keys_foldl_updateLast_nodup node.outputs ir.nodes.length hk
  · intro v j hj
    rw [add_node_lookup] at hj
    rw [add_node_nodes]
    by_cases hv : v ∈ node.outputs
    · rw [if_pos hv] at hj
      cases hj
      refine ⟨node, getElem_append_len ir.nodes node, hv, ?_⟩
      intro k rk hk2 _
      have := getElem_lt_length hk2
      simp only [List.length_append, List.length_singleton] at this
      omega
    · rw [if_neg hv] at hj
      obtain ⟨r, hr, hvr, hlatest⟩ := hs v j hj
      have hjlt := getElem_lt_length hr
      refine ⟨r, by rw [getElem_append_lt hjlt]; exact hr, hvr, ?_⟩
      intro k rk hk2 hvk
      rcases getElem_append_singleton hk2 with ⟨hklt, hko⟩ | ⟨hkeq, hre⟩
      · exact hlatest k rk hko hvk
      · subst hre
        exact absurd hvk hv
  · intro j r hj v hv
    rw [add_node_lookup]
    rw [add_node_nodes] at hj
    by_cases hvo : v ∈ node.outputs
    · exact ⟨ir.nodes.length, by rw [if_pos hvo]⟩
    · rw [if_neg hvo]
      rcases getElem_append_singleton hj with ⟨_, hjo⟩ | ⟨_, hre⟩
      · exact hc j r hjo v hv
      · subst hre
        exact absurd hv hvo
  · intro v hv
    rw [add_node_placeholders] at hv
    rw [add_node_lookup]
    rcases hph v hv with hvo | ⟨i, hi⟩
    · exact ⟨ir.nodes.length, by rw [if_pos hvo]⟩
    · by_cases hvo : v ∈ node.outputs
      · exact ⟨ir.nodes.length, by rw [if_pos hvo]⟩
      · exact ⟨i, by rw [if_neg hvo]; exact hi⟩
  · intro r hr
    rw [add_node_nodes] at hr
    rw [add_node_placeholders]
    rcases List.mem_append.mp hr with hro | hrn
    · exact hty r hro
    · rw [List.mem_singleton] at hrn
      subst hrn
      exact ht

/-- The invariant ignores the name counter. -/
theorem IRInv_next_id (ir : IR) (n : Nat) (h : IRInv ir) : IRInv { ir with next_id := n } := by
  cases h
  constructor <;> assumption

/-- The invariant survives committing an operation record. -/
theorem IRInv_add_node_op (ir : IR) (op : String) (ins outs : List String) (h : IRInv ir) :
    IRInv (ir.add_node_op op ins outs) := by
  unfold IR.add_node_op
  apply IRInv_next_id
  exact IRInv_add_node ir _ h.keysNodup h.lastDef_sound h.lastDef_complete
    (fun v hv => Or.inr (h.placeholders_defined v hv))
    h.types_ok
    (Or.inl rfl)

/-- The invariant survives declaring a placeholder. -/
theorem IRInv_add_placeholder (ir : IR) (name : String) (h : IRInv ir) :
    IRInv (ir.add_placeholder name) := by
  unfold IR.add_placeholder
  apply IRInv_next_id
  apply IRInv_add_node
  · exact h.keysNodup
  · exact h.lastDef_sound
  · exact h.lastDef_complete
  · intro v hv
    rcases mem_insertNew.mp hv with rfl | hvold
    · exact Or.inl (by simp [IRNode.create_placeholder, IRNode.mkOperation])
    · exact Or.inr (h.placeholders_defined v hvold)
  · intro r hr
    rcases h.types_ok r hr with h1 | ⟨h1, h2, h3, h4⟩
    · exact Or.inl h1
    · exact Or.inr ⟨h1, h2, subset_insertNew name ir.placeholders h3, h4⟩
  · refine Or.inr ⟨rfl, ?_, ?_, rfl⟩
    · simp [IRNode.create_placeholder, IRNode.mkOperation]
    · simp only [IRNode.create_placeholder, IRNode.mkOperation]
      exact self_mem_insertNew name ir.placeholders

/-- The invariant survives one recording action. -/
theorem IRInv_step (p : Program) (c : Cmd) (h : IRInv p.ir) : IRInv (p.step c).ir := by
  cases c with
  | regVar name =>
    by_cases hc : name ≠ ("__var") ∧ name ∈ p.var_names
    · have he : (p.step (Cmd.regVar name)).ir = p.ir := by
        simp only [Program.step, Program.register_var_name, if_pos hc]
      rw [he]
      exact h
    · have he : (p.step (Cmd.regVar name)).ir = p.ir := by
        simp only [Program.step, Program.register_var_name, if_neg hc]
      rw [he]
      exact h
  | regPlaceholder name =>
    by_cases hc : name ≠ ("__var") ∧ name ∈ p.var_names
    · have he : (p.step (Cmd.regPlaceholder name)).ir = p.ir := by
        simp only [Program.step, Program.register_placeholder, Program.register_var_name,
          if_pos hc]
      rw [he]
      exact h
    · have he : (p.step (Cmd.regPlaceholder name)).ir = p.ir.add_placeholder name := by
        simp only [Program.step, Program.register_placeholder, Program.register_var_name,
          if_neg hc]
      rw [he]
      exact IRInv_add_placeholder p.ir name h
  | commit op ins outs =>
    exact IRInv_add_node_op p.ir op ins outs h

/-- The invariant holds of a fresh session. -/
theorem IRInv_initial : IRInv Program.initial.ir := by
  constructor
  · simp [Program.initial]
  · intro v j hj
    simp [Program.initial, lookupL] at hj
  · intro j r hj
    simp [Program.initial] at hj
  · intro v hv
    simp [Program.initial] at hv
  · intro r hr
    simp [Program.initial] at hr

/-- The invariant holds after any recording script. -/
theorem IRInv_runCmds (p : Program) (cmds : List Cmd) (h : IRInv p.ir) :
    IRInv (p.runCmds cmds).ir := by
  induction cmds generalizing p with
  | nil => exact h
  | cons c rest ih =>
    simp only [Program.runCmds, List.foldl_cons]
    exact ih (p.step c) (IRInv_step p c h)

/-- Closure property of a live-set state: every live variable's last
definition index is live. -/
def dseClosed (lastDef : List (String × Nat)) (s : DSEState) : Prop :=
  ∀ v ∈ s.live_vars, ∀ j : Nat, lookupL lastDef v = some j → j ∈ s.live_nodes

/-- Support property of a live-set state: every live node index is the last
definition of some variable. -/
def dseSupported (lastDef : List (String × Nat)) (s : DSEState) : Prop :=
  ∀ i ∈ s.live_nodes, ∃ v, lookupL lastDef v = some i

/-- Case-split normal form of the input step. -/
theorem dseInputStep_eq (lastDef : List (String × Nat)) (sc : DSEState × Bool)
    (input : String) :
    dseInputStep lastDef sc input =
      if input ∈ sc.1.live_vars then sc
      else
        match lookupL lastDef input with
        | some j => ({ live_nodes := insertNew j sc.1.live_nodes,
                       live_vars := input :: sc.1.live_vars }, true)
        | none => ({ sc.1 with live_vars := input :: sc.1.live_vars }, sc.2) := rfl

/-- The input step only grows the live sets. -/
theorem dseInputStep_mono (lastDef : List (String × Nat)) (sc : DSEState × Bool)
    (input : String) :
    sc.1.live_vars ⊆ (dseInputStep lastDef sc input).1.live_vars ∧
    sc.1.live_nodes ⊆ (dseInputStep lastDef sc input).1.live_nodes := by
  rw [dseInputStep_eq]
  by_cases hin : input ∈ sc.1.live_vars
  · rw [if_pos hin]
    exact ⟨fun x h => h, fun x h => h⟩
  · rw [if_neg hin]
    cases hl : lookupL lastDef input with
    | some j =>
      exact ⟨fun x h => List.mem_cons_of_mem _ h, fun x h => subset_insertNew _ _ h⟩
    | none =>
      exact ⟨fun x h => List.mem_cons_of_mem _ h, fun x h => h⟩

/-- The changed flag never resets within the input step. -/
theorem dseInputStep_ch (lastDef : List (String × Nat)) (sc : DSEState × Bool)
    (input : String) (h : sc.2 = true) : (dseInputStep lastDef sc input).2 = true := by
  rw [dseInputStep_eq]
  by_cases hin : input ∈ sc.1.live_vars
  · rw [if_pos hin]
    exact h
  · rw [if_neg hin]
    cases hl : lookupL lastDef input with
    | some j => rfl
    | none => exact h

/-- The input step keeps live variables distinct. -/
theorem dseInputStep_nodup (lastDef : List (String × Nat)) (sc : DSEState × Bool)
    (input : String) (h : sc.1.live_vars.Nodup) :
    (dseInputStep lastDef sc input).1.live_vars.Nodup := by
  rw [dseInputStep_eq]
  by_cases hin : input ∈ sc.1.live_vars
  · rw [if_pos hin]
    exact h
  · rw [if_neg hin]
    cases hl : lookupL lastDef input with
    | some j => exact List.nodup_cons.mpr ⟨hin, h⟩
    | none => exact List.nodup_cons.mpr ⟨hin, h⟩

/-- The input step keeps live variables inside any bound containing the
input. -/
theorem dseInputStep_sub (lastDef : List (String × Nat)) (sc : DSEState × Bool)
    (input : String) (B : List String) (h : sc.1.live_vars ⊆ B) (hi : input ∈ B) :
    (dseInputStep lastDef sc input).1.live_vars ⊆ B := by
  rw [dseInputStep_eq]
  by_cases hin : input ∈ sc.1.live_vars
  · rw [if_pos hin]
    exact h
  · rw [if_neg hin]
    cases hl : lookupL lastDef input with
    | some j =>
      intro x hx
      rcases List.mem_cons.mp hx with rfl | hx2
      · exact hi
      · exact h hx2
    | none =>
      intro x hx
      rcases List.mem_cons.mp hx with rfl | hx2
      · exact hi
      · exact h hx2

/-- The live-variable count never shrinks within the input step. -/
theorem dseInputStep_len (lastDef : List (String × Nat)) (sc : DSEState × Bool)
    (input : String) :
    sc.1.live_vars.length ≤ (dseInputStep lastDef sc input).1.live_vars.length := by
  rw [dseInputStep_eq]
  by_cases hin : input ∈ sc.1.live_vars
  · rw [if_pos hin]
  · rw [if_neg hin]
    cases hl : lookupL lastDef input with
    | some j => exact Nat.le_succ _
    | none => exact Nat.le_succ _

/-- A newly raised changed flag witnesses live-variable growth. -/
theorem dseInputStep_changed (lastDef : List (String × Nat)) (sc : DSEState × Bool)
    (input : String) (h : (dseInputStep lastDef sc input).2 = true) :
    sc.2 = true ∨ sc.1.live_vars.length < (dseInputStep lastDef sc input).1.live_vars.length := by
  rw [dseInputStep_eq] at h ⊢
  by_cases hin : input ∈ sc.1.live_vars
  · rw [if_pos hin] at h ⊢
    exact Or.inl h
  · rw [if_neg hin] at h ⊢
    cases hl : lookupL lastDef input with
    | some j => exact Or.inr (Nat.lt_succ_self _)
    | none =>
      rw [hl] at h
      exact Or.inl h

/-- The input step preserves closure. -/
theorem dseInputStep_closed (lastDef : List (String × Nat)) (sc : DSEState × Bool)
    (input : String) (h : dseClosed lastDef sc.1) :
    dseClosed lastDef (dseInputStep lastDef sc input).1 := by
  rw [dseInputStep_eq]
  by_cases hin : input ∈ sc.1.live_vars
  · rw [if_pos hin]
    exact h
  · rw [if_neg hin]
    cases hl : lookupL lastDef input with
    | some j =>
      intro v hv j2 hj2
      rcases List.mem_cons.mp hv with rfl | hv2
      · rw [hl] at hj2
        cases hj2
        exact self_mem_insertNew _ _
      · exact subset_insertNew _ _ (h v hv2 j2 hj2)
    | none =>
      intro v hv j2 hj2
      rcases List.mem_cons.mp hv with rfl | hv2
      · rw [hl] at hj2
        cases hj2
      · exact h v hv2 j2 hj2

/-- The input step preserves support. -/
theorem dseInputStep_supported (lastDef : List (String × Nat)) (sc : DSEState × Bool)
    (input : String) (h : dseSupported lastDef sc.1) :
    dseSupported lastDef (dseInputStep lastDef sc input).1 := by
  rw [dseInputStep_eq]
  by_cases hin : input ∈ sc.1.live_vars
  · rw [if_pos hin]
    exact h
  · rw [if_neg hin]
    cases hl : lookupL lastDef input with
    | some j =>
      intro i hi
      rcases mem_insertNew.mp hi with rfl | hi2
      · exact ⟨input, hl⟩
      · exact h i hi2
    | none => exact h

/-- When the input step did not raise the flag, the node set is untouched,
the flag was already down, and the input ended up live. -/
theorem dseInputStep_false (lastDef : List (String × Nat)) (sc : DSEState × Bool)
    (input : String) (h : (dseInputStep lastDef sc input).2 = false) :
    (dseInputStep lastDef sc input).1.live_nodes = sc.1.live_nodes ∧ sc.2 = false ∧
      input ∈ (dseInputStep lastDef sc input).1.live_vars := by
  rw [dseInputStep_eq] at h ⊢
  by_cases hin : input ∈ sc.1.live_vars
  · rw [if_pos hin] at h ⊢
    exact ⟨rfl, h, hin⟩
  · rw [if_neg hin] at h ⊢
    cases hl : lookupL lastDef input with
    | some j =>
      rw [hl] at h
      cases h
    | none =>
      rw [hl] at h
      exact ⟨rfl, h, List.mem_cons_self _ _⟩

/-- Walking the inputs only grows the live sets. -/
theorem dseNodeStep_mono (lastDef : List (String × Nat)) (inputs : List String)
    (sc : DSEState × Bool) :
    sc.1.live_vars ⊆ (dseNodeStep lastDef inputs sc).1.live_vars ∧
    sc.1.live_nodes ⊆ (dseNodeStep lastDef inputs sc).1.live_nodes := by
  induction inputs generalizing sc with
  | nil => exact ⟨fun x h => h, fun x h => h⟩
  | cons input rest ih =>
    simp only [dseNodeStep, List.foldl_cons]
    have h1 := dseInputStep_mono lastDef sc input
    have h2 := ih (dseInputStep lastDef sc input)
    exact ⟨fun x h => h2.1 (h1.1 h), fun x h => h2.2 (h1.2 h)⟩

/-- The changed flag never resets while walking the inputs. -/
theorem dseNodeStep_ch (lastDef : List (String × Nat)) (inputs : List String)
    (sc : DSEState × Bool) (h : sc.2 = true) : (dseNodeStep lastDef inputs sc).2 = true := by
  induction inputs generalizing sc with
  | nil => exact h
  | cons input rest ih =>
    simp only [dseNodeStep, List.foldl_cons]
    exact ih _ (dseInputStep_ch lastDef sc input h)

/-- Walking the inputs keeps live variables distinct. -/
theorem dseNodeStep_nodup (lastDef : List (String × Nat)) (inputs : List String)
    (sc : DSEState × Bool) (h : sc.1.live_vars.Nodup) :
    (dseNodeStep lastDef inputs sc).1.live_vars.Nodup := by
  induction inputs generalizing sc with
  | nil => exact h
  | cons input rest ih =>
    simp only [dseNodeStep, List.foldl_cons]
    exact ih _ (dseInputStep_nodup lastDef sc input h)

/-- Walking the inputs keeps live variables inside a bound containing them. -/
theorem dseNodeStep_sub (lastDef : List (String × Nat)) (inputs : List String)
    (sc : DSEState × Bool) (B : List String) (h : sc.1.live_vars ⊆ B) (hi : inputs ⊆ B) :
    (dseNodeStep lastDef inputs sc).1.live_vars ⊆ B := by
  induction inputs generalizing sc with
  | nil => exact h
  | cons input rest ih =>
    simp only [dseNodeStep, List.foldl_cons]
    exact ih _ (dseInputStep_sub lastDef sc input B h (hi (List.mem_cons_self _ _)))
      (fun x hx => hi (List.mem_cons_of_mem _ hx))

/-- The live-variable count never shrinks while walking the inputs. -/
theorem dseNodeStep_len (lastDef : List (String × Nat)) (inputs : List String)
    (sc : DSEState × Bool) :
    sc.1.live_vars.length ≤ (dseNodeStep lastDef inputs sc).1.live_vars.length := by
  induction inputs generalizing sc with
  | nil => exact Nat.le_refl _
  | cons input rest ih =>
    simp only [dseNodeStep, List.foldl_cons]
    exact Nat.le_trans (dseInputStep_len lastDef sc input) (ih _)

/-- A raised flag after walking the inputs witnesses growth. -/
theorem dseNodeStep_changed (lastDef : List (String × Nat)) (inputs : List String)
    (sc : DSEState × Bool) (h : (dseNodeStep lastDef inputs sc).2 = true) :
    sc.2 = true ∨ sc.1.live_vars.length < (dseNodeStep lastDef inputs sc).1.live_vars.length := by
  induction inputs generalizing sc with
  | nil => exact Or.inl h
  | cons input rest ih =>
    simp only [dseNodeStep, List.foldl_cons] at h ⊢
    rcases ih (dseInputStep lastDef sc input) h with h2 | h2
    · rcases dseInputStep_changed lastDef sc input h2 with h3 | h3
      · exact Or.inl h3
      · exact Or.inr (Nat.lt_of_lt_of_le h3 (dseNodeStep_len lastDef rest _))
    · exact Or.inr (Nat.lt_of_le_of_lt (dseInputStep_len lastDef sc input) h2)

/-- Walking the inputs preserves closure. -/
theorem dseNodeStep_closed (lastDef : List (String × Nat)) (inputs : List String)
    (sc : DSEState × Bool) (h : dseClosed lastDef sc.1) :
    dseClosed lastDef (dseNodeStep lastDef inputs sc).1 := by
  induction inputs generalizing sc with
  | nil => exact h
  | cons input rest ih =>
    simp only [dseNodeStep, List.foldl_cons]
    exact ih _ (dseInputStep_closed lastDef sc input h)

/-- Walking the inputs preserves support. -/
theorem dseNodeStep_supported (lastDef : List (String × Nat)) (inputs : List String)
    (sc : DSEState × Bool) (h : dseSupported lastDef sc.1) :
    dseSupported lastDef (dseNodeStep lastDef inputs sc).1 := by
  induction inputs generalizing sc with
  | nil => exact h
  | cons input rest ih =>
    simp only [dseNodeStep, List.foldl_cons]
    exact ih _ (dseInputStep_supported lastDef sc input h)

/-- When walking the inputs did not raise the flag, the node set is
untouched, the flag was already down, and every input ended up live. -/
theorem dseNodeStep_false (lastDef : List (String × Nat)) (inputs : List String)
    (sc : DSEState × Bool) (h : (dseNodeStep lastDef inputs sc).2 = false) :
    (dseNodeStep lastDef inputs sc).1.live_nodes = sc.1.live_nodes ∧ sc.2 = false ∧
      ∀ v ∈ inputs, v ∈ (dseNodeStep lastDef inputs sc).1.live_vars := by
  induction inputs generalizing sc with
  | nil => exact ⟨rfl, h, fun v hv => absurd hv (List.not_mem_nil v)⟩
  | cons input rest ih =>
    simp only [dseNodeStep, List.foldl_cons] at h ⊢
    obtain ⟨hn, hf, hall⟩ := ih (dseInputStep lastDef sc input) h
    obtain ⟨hn2, hf2, hin⟩ := dseInputStep_false lastDef sc input hf
    refine ⟨hn.trans hn2, hf2, ?_⟩
    intro v hv
    rcases List.mem_cons.mp hv with rfl | hv2
    · exact (dseNodeStep_mono lastDef rest _).1 hin
    · exact hall v hv2

/-- A sweep visit only grows the live sets. -/
theorem dseVisit_mono (lastDef : List (String × Nat)) (sc : DSEState × Bool)
    (p : Nat × IRNode) :
    sc.1.live_vars ⊆ (dseVisit lastDef sc p).1.live_vars ∧
    sc.1.live_nodes ⊆ (dseVisit lastDef sc p).1.live_nodes := by
  unfold dseVisit
  split
  · exact dseNodeStep_mono lastDef p.2.inputs sc
  · exact ⟨fun x h => h, fun x h => h⟩

/-- The changed flag never resets within a visit. -/
theorem dseVisit_ch (lastDef : List (String × Nat)) (sc : DSEState × Bool)
    (p : Nat × IRNode) (h : sc.2 = true) : (dseVisit lastDef sc p).2 = true := by
  unfold dseVisit
  split
  · exact dseNodeStep_ch lastDef p.2.inputs sc h
  · exact h

/-- A visit keeps live variables distinct. -/
theorem dseVisit_nodup (lastDef : List (String × Nat)) (sc : DSEState × Bool)
    (p : Nat × IRNode) (h : sc.1.live_vars.Nodup) :
    (dseVisit lastDef sc p).1.live_vars.Nodup := by
  unfold dseVisit
  split
  · exact dseNodeStep_nodup lastDef p.2.inputs sc h
  · exact h

/-- A visit keeps live variables inside a bound containing its inputs. -/
theorem dseVisit_sub (lastDef : List (String × Nat)) (sc : DSEState × Bool)
    (p : Nat × IRNode) (B : List String) (h : sc.1.live_vars ⊆ B) (hi : p.2.inputs ⊆ B) :
    (dseVisit lastDef sc p).1.live_vars ⊆ B := by
  unfold dseVisit
  split
  · exact dseNodeStep_sub lastDef p.2.inputs sc B h hi
  · exact h

/-- The live-variable count never shrinks within a visit. -/
theorem dseVisit_len (lastDef : List (String × Nat)) (sc : DSEState × Bool)
    (p : Nat × IRNode) :
    sc.1.live_vars.length ≤ (dseVisit lastDef sc p).1.live_vars.length := by
  unfold dseVisit
  split
  · exact dseNodeStep_len lastDef p.2.inputs sc
  · exact Nat.le_refl _

/-- A raised flag after a visit witnesses growth. -/
theorem dseVisit_changed (lastDef : List (String × Nat)) (sc : DSEState × Bool)
    (p : Nat × IRNode) (h : (dseVisit lastDef sc p).2 = true) :
    sc.2 = true ∨ sc.1.live_vars.length < (dseVisit lastDef sc p).1.live_vars.length := by
  unfold dseVisit at h ⊢
  split at h
  · next hin =>
    simp only [if_pos hin]
    exact dseNodeStep_changed lastDef p.2.inputs sc h
  · exact Or.inl h

/-- A visit preserves closure. -/
theorem dseVisit_closed (lastDef : List (String × Nat)) (sc : DSEState × Bool)
    (p : Nat × IRNode) (h : dseClosed lastDef sc.1) :
    dseClosed lastDef (dseVisit lastDef sc p).1 := by
  unfold dseVisit
  split
  · exact dseNodeStep_closed lastDef p.2.inputs sc h
  · exact h

/-- A visit preserves support. -/
theorem dseVisit_supported (lastDef : List (String × Nat)) (sc : DSEState × Bool)
    (p : Nat × IRNode) (h : dseSupported lastDef sc.1) :
    dseSupported lastDef (dseVisit lastDef sc p).1 := by
  unfold dseVisit
  split
  · exact dseNodeStep_supported lastDef p.2.inputs sc h
  · exact h

/-- When a visit did not raise the flag, the node set is untouched, the flag
was already down, and a visited live record got all its inputs live. -/
theorem dseVisit_false (lastDef : List (String × Nat)) (sc : DSEState × Bool)
    (p : Nat × IRNode) (h : (dseVisit lastDef sc p).2 = false) :
    (dseVisit lastDef sc p).1.live_nodes = sc.1.live_nodes ∧ sc.2 = false ∧
      (p.1 ∈ sc.1.live_nodes → ∀ v ∈ p.2.inputs, v ∈ (dseVisit lastDef sc p).1.live_vars) := by
  unfold dseVisit at h ⊢
  split at h
  · next hin =>
    simp only [if_pos hin]
    obtain ⟨hn, hf, hall⟩ := dseNodeStep_false lastDef p.2.inputs sc h
    exact ⟨hn, hf, fun _ => hall⟩
  · next hin =>
    simp only [if_neg hin]
    exact ⟨trivial, h, fun hc => absurd hc hin⟩

/-- A sweep fold only grows the live sets. -/
theorem foldVisit_mono (lastDef : List (String × Nat)) (l : List (Nat × IRNode))
    (sc : DSEState × Bool) :
    sc.1.live_vars ⊆ (l.foldl (dseVisit lastDef) sc).1.live_vars ∧
    sc.1.live_nodes ⊆ (l.foldl (dseVisit lastDef) sc).1.live_nodes := by
  induction l generalizing sc with
  | nil => exact ⟨fun x h => h, fun x h => h⟩
  | cons p rest ih =>
    simp only [List.foldl_cons]
    have h1 := dseVisit_mono lastDef sc p
    have h2 := ih (dseVisit lastDef sc p)
    exact ⟨fun x h => h2.1 (h1.1 h), fun x h => h2.2 (h1.2 h)⟩

/-- The changed flag never resets within a sweep fold. -/
theorem foldVisit_ch (lastDef : List (String × Nat)) (l : List (Nat × IRNode))
    (sc : DSEState × Bool) (h : sc.2 = true) : (l.foldl (dseVisit lastDef) sc).2 = true := by
  induction l generalizing sc with
  | nil => exact h
  | cons p rest ih =>
    simp only [List.foldl_cons]
    exact ih _ (dseVisit_ch lastDef sc p h)

/-- A sweep fold keeps live variables distinct. -/
theorem foldVisit_nodup (lastDef : List (String × Nat)) (l : List (Nat × IRNode))
    (sc : DSEState × Bool) (h : sc.1.live_vars.Nodup) :
    (l.foldl (dseVisit lastDef) sc).1.live_vars.Nodup := by
  induction l generalizing sc with
  | nil => exact h
  | cons p rest ih =>
    simp only [List.foldl_cons]
    exact ih _ (dseVisit_nodup lastDef sc p h)

/-- A sweep fold keeps live variables inside a bound covering all inputs. -/
theorem foldVisit_sub (lastDef : List (String × Nat)) (l : List (Nat × IRNode))
    (sc : DSEState × Bool) (B : List String) (h : sc.1.live_vars ⊆ B)
    (hB : ∀ p ∈ l, p.2.inputs ⊆ B) :
    (l.foldl (dseVisit lastDef) sc).1.live_vars ⊆ B := by
  induction l generalizing sc with
  | nil => exact h
  | cons p rest ih =>
    simp only [List.foldl_cons]
    exact ih _ (dseVisit_sub lastDef sc p B h (hB p (List.mem_cons_self _ _)))
      (fun q hq => hB q (List.mem_cons_of_mem _ hq))

/-- The live-variable count never shrinks within a sweep fold. -/
theorem foldVisit_len (lastDef : List (String × Nat)) (l : List (Nat × IRNode))
    (sc : DSEState × Bool) :
    sc.1.live_vars.length ≤ (l.foldl (dseVisit lastDef) sc).1.live_vars.length := by
  induction l generalizing sc with
  | nil => exact Nat.le_refl _
  | cons p rest ih =>
    simp only [List.foldl_cons]
    exact Nat.le_trans (dseVisit_len lastDef sc p) (ih _)

/-- A raised flag after a sweep fold witnesses growth. -/
theorem foldVisit_changed (lastDef : List (String × Nat)) (l : List (Nat × IRNode))
    (sc : DSEState × Bool) (h : (l.foldl (dseVisit lastDef) sc).2 = true) :
    sc.2 = true ∨
      sc.1.live_vars.length < (l.foldl (dseVisit lastDef) sc).1.live_vars.length := by
  induction l generalizing sc with
  | nil => exact Or.inl h
  | cons p rest ih =>
    simp only [List.foldl_cons] at h ⊢
    rcases ih (dseVisit lastDef sc p) h with h2 | h2
    · rcases dseVisit_changed lastDef sc p h2 with h3 | h3
      · exact Or.inl h3
      · exact Or.inr (Nat.lt_of_lt_of_le h3 (foldVisit_len lastDef rest _))
    · exact Or.inr (Nat.lt_of_le_of_lt (dseVisit_len lastDef sc p) h2)

/-- A sweep fold preserves closure. -/
theorem foldVisit_closed (lastDef : List (String × Nat)) (l : List (Nat × IRNode))
    (sc : DSEState × Bool) (h : dseClosed lastDef sc.1) :
    dseClosed lastDef (l.foldl (dseVisit lastDef) sc).1 := by
  induction l generalizing sc with
  | nil => exact h
  | cons p rest ih =>
    simp only [List.foldl_cons]
    exact ih _ (dseVisit_closed lastDef sc p h)

/-- A sweep fold preserves support. -/
theorem foldVisit_supported (lastDef : List (String × Nat)) (l : List (Nat × IRNode))
    (sc : DSEState × Bool) (h : dseSupported lastDef sc.1) :
    dseSupported lastDef (l.foldl (dseVisit lastDef) sc).1 := by
  induction l generalizing sc with
  | nil => exact h
  | cons p rest ih =>
    simp only [List.foldl_cons]
    exact ih _ (dseVisit_supported lastDef sc p h)

/-- When a sweep fold did not raise the flag, the node set is unchanged, the
flag started down, and every record live at the start of the fold had its
inputs made live by the end. -/
theorem foldVisit_false (lastDef : List (String × Nat)) (l : List (Nat × IRNode))
    (sc : DSEState × Bool) (h : (l.foldl (dseVisit lastDef) sc).2 = false) :
    (l.foldl (dseVisit lastDef) sc).1.live_nodes = sc.1.live_nodes ∧ sc.2 = false ∧
      ∀ p ∈ l, p.1 ∈ sc.1.live_nodes → ∀ v ∈ p.2.inputs,
        v ∈ (l.foldl (dseVisit lastDef) sc).1.live_vars := by
  induction l generalizing sc with
  | nil => exact ⟨rfl, h, fun p hp => absurd hp (List.not_mem_nil p)⟩
  | cons p rest ih =>
    simp only [List.foldl_cons] at h ⊢
    obtain ⟨hn, hf, hall⟩ := ih (dseVisit lastDef sc p) h
    obtain ⟨hn2, hf2, hinp⟩ := dseVisit_false lastDef sc p hf
    refine ⟨hn.trans hn2, hf2, ?_⟩
    intro q hq hql v hv
    rcases List.mem_cons.mp hq with rfl | hq2
    · exact (foldVisit_mono lastDef rest _).1 (hinp hql v hv)
    · exact hall q hq2 (by rw [hn2]; exact hql) v hv

/-- Propositional case-split form of the root-collection step. -/
theorem dseRootStep_eq (ir : IR) (s : DSEState) (vi : String × Nat) :
    dseRootStep ir s vi =
      if vi.1 ∈ ir.placeholders ∨ containsSubstr vi.1 ("__var") = false then
        { live_nodes := insertNew vi.2 s.live_nodes, live_vars := insertNew vi.1 s.live_vars }
      else s := by
  unfold dseRootStep
  by_cases h : vi.1 ∈ ir.placeholders ∨ containsSubstr vi.1 ("__var") = false
  · rw [if_pos h]
    have hb : (decide (vi.1 ∈ ir.placeholders) || !(containsSubstr vi.1 ("__var"))) = true := by
      rcases h with h | h
      · simp [h]
      · simp [h]
    rw [if_pos hb]
  · rw [if_neg h]
    have hb : ¬ (decide (vi.1 ∈ ir.placeholders) || !(containsSubstr vi.1 ("__var"))) = true := by
      simp only [Bool.or_eq_true, decide_eq_true_eq, Bool.not_eq_true']
      exact h
    rw [if_neg hb]

/-- Live variables after the root-collection fold. -/
theorem dseRootFold_vars (ir : IR) (l : List (String × Nat)) (s : DSEState) (v : String) :
    v ∈ (l.foldl (dseRootStep ir) s).live_vars ↔
      v ∈ s.live_vars ∨ ∃ i : Nat, (v, i) ∈ l ∧
        (v ∈ ir.placeholders ∨ containsSubstr v ("__var") = false) := by
  induction l generalizing s with
  | nil => simp
  | cons vi rest ih =>
    obtain ⟨w, i⟩ := vi
    simp only [List.foldl_cons]
    rw [ih, dseRootStep_eq]
    by_cases hc : w ∈ ir.placeholders ∨ containsSubstr w ("__var") = false
    · rw [if_pos hc]
      constructor
      · rintro (hv | ⟨i2, hmem, hcond⟩)
        · rcases mem_insertNew.mp hv with rfl | hv2
          · exact Or.inr ⟨i, List.mem_cons_self _ _, hc⟩
          · exact Or.inl hv2
        · exact Or.inr ⟨i2, List.mem_cons_of_mem _ hmem, hcond⟩
      · rintro (hv | ⟨i2, hmem, hcond⟩)
        · exact Or.inl (subset_insertNew _ _ hv)
        · rcases List.mem_cons.mp hmem with heq | hmem2
          · rw [Prod.mk.injEq] at heq
            obtain ⟨rfl, rfl⟩ := heq
            exact Or.inl (self_mem_insertNew _ _)
          · exact Or.inr ⟨i2, hmem2, hcond⟩
    · rw [if_neg hc]
      constructor
      · rintro (hv | ⟨i2, hmem, hcond⟩)
        · exact Or.inl hv
        · exact Or.inr ⟨i2, List.mem_cons_of_mem _ hmem, hcond⟩
      · rintro (hv | ⟨i2, hmem, hcond⟩)
        · exact Or.inl hv
        · rcases List.mem_cons.mp hmem with heq | hmem2
          · rw [Prod.mk.injEq] at heq
            obtain ⟨rfl, rfl⟩ := heq
            exact absurd hcond hc
          · exact Or.inr ⟨i2, hmem2, hcond⟩

/-- Live nodes after the root-collection fold. -/
theorem dseRootFold_nodes (ir : IR) (l : List (String × Nat)) (s : DSEState) (i : Nat) :
    i ∈ (l.foldl (dseRootStep ir) s).live_nodes ↔
      i ∈ s.live_nodes ∨ ∃ v : String, (v, i) ∈ l ∧
        (v ∈ ir.placeholders ∨ containsSubstr v ("__var") = false) := by
  induction l generalizing s with
  | nil => simp
  | cons vi rest ih =>
    obtain ⟨w, j⟩ := vi
    simp only [List.foldl_cons]
    rw [ih, dseRootStep_eq]
    by_cases hc : w ∈ ir.placeholders ∨ containsSubstr w ("__var") = false
    · rw [if_pos hc]
      constructor
      · rintro (hv | ⟨v2, hmem, hcond⟩)
        · rcases mem_insertNew.mp hv with rfl | hv2
          · exact Or.inr ⟨w, List.mem_cons_self _ _, hc⟩
          · exact Or.inl hv2
        · exact Or.inr ⟨v2, List.mem_cons_of_mem _ hmem, hcond⟩
      · rintro (hv | ⟨v2, hmem, hcond⟩)
        · exact Or.inl (subset_insertNew _ _ hv)
        · rcases List.mem_cons.mp hmem with heq | hmem2
          · rw [Prod.mk.injEq] at heq
            obtain ⟨rfl, rfl⟩ := heq
            exact Or.inl (self_mem_insertNew _ _)
          · exact Or.inr ⟨v2, hmem2, hcond⟩
    · rw [if_neg hc]
      constructor
      · rintro (hv | ⟨v2, hmem, hcond⟩)
        · exact Or.inl hv
        · exact Or.inr ⟨v2, List.mem_cons_of_mem _ hmem, hcond⟩
      · rintro (hv | ⟨v2, hmem, hcond⟩)
        · exact Or.inl hv
        · rcases List.mem_cons.mp hmem with heq | hmem2
          · rw [Prod.mk.injEq] at heq
            obtain ⟨rfl, rfl⟩ := heq
            exact absurd hcond hc
          · exact Or.inr ⟨v2, hmem2, hcond⟩

/-- The root-collection fold keeps live variables distinct. -/
theorem dseRootFold_nodup (ir : IR) (l : List (String × Nat)) (s : DSEState)
    (h : s.live_vars.Nodup) : (l.foldl (dseRootStep ir) s).live_vars.Nodup := by
  induction l generalizing s with
  | nil => exact h
  | cons vi rest ih =>
    simp only [List.foldl_cons]
    apply ih
    rw [dseRootStep_eq]
    split
    · exact nodup_insertNew h
    · exact h

/-- Initial live variables, characterized. -/
theorem dseInit_vars_iff (ir : IR) (v : String) :
    v ∈ (dseInit ir).live_vars ↔
      ∃ i : Nat, (v, i) ∈ ir.var_to_last_def ∧
        (v ∈ ir.placeholders ∨ containsSubstr v ("__var") = false) := by
  unfold dseInit
  rw [dseRootFold_vars]
  simp

/-- Initial live nodes, characterized. -/
theorem dseInit_nodes_iff (ir : IR) (i : Nat) :
    i ∈ (dseInit ir).live_nodes ↔
      ∃ v : String, (v, i) ∈ ir.var_to_last_def ∧
        (v ∈ ir.placeholders ∨ containsSubstr v ("__var") = false) := by
  unfold dseInit
  rw [dseRootFold_nodes]
  simp

/-- The initial live variables are distinct. -/
theorem dseInit_nodup (ir : IR) : (dseInit ir).live_vars.Nodup := by
  unfold dseInit
  exact dseRootFold_nodup ir _ _ List.nodup_nil

/-- The initial state is closed when the map keys are distinct. -/
theorem dseInit_closed (ir : IR) (hk : (ir.var_to_last_def.map Prod.fst).Nodup) :
    dseClosed ir.var_to_last_def (dseInit ir) := by
  intro v hv j hj
  obtain ⟨i, hmem, hcond⟩ := (dseInit_vars_iff ir v).mp hv
  have : lookupL ir.var_to_last_def v = some i := mem_lookupL hk hmem
  rw [this] at hj
  cases hj
  exact (dseInit_nodes_iff ir j).mpr ⟨v, hmem, hcond⟩

/-- The initial state is supported. -/
theorem dseInit_supported (ir : IR) (hk : (ir.var_to_last_def.map Prod.fst).Nodup) :
    dseSupported ir.var_to_last_def (dseInit ir) := by
  intro i hi
  obtain ⟨v, hmem, hcond⟩ := (dseInit_nodes_iff ir i).mp hi
  exact ⟨v, mem_lookupL hk hmem⟩

/-- The initial live variables lie inside the sweep bound. -/
theorem dseInit_sub (ir : IR) : (dseInit ir).live_vars ⊆ dseVarBound ir := by
  intro v hv
  obtain ⟨i, hmem, _⟩ := (dseInit_vars_iff ir v).mp hv
  unfold dseVarBound
  exact List.mem_append_left _ (List.mem_map_of_mem Prod.fst hmem)

/-- All record inputs lie inside the sweep bound. -/
theorem dseVarBound_inputs (ir : IR) :
    ∀ p ∈ idxZip 0 ir.nodes, p.2.inputs ⊆ dseVarBound ir := by
  intro p hp v hv
  have hmem : p.2 ∈ ir.nodes :=
    List.mem_iff_getElem?.mpr ⟨p.1, mem_idxZip_iff.mp hp⟩
  unfold dseVarBound
  refine List.mem_append_right _ ?_
  exact List.mem_flatten.mpr ⟨p.2.inputs, List.mem_map_of_mem _ hmem, hv⟩

/-- A sweep only grows the live sets. -/
theorem dsePass_mono (nodes : List IRNode) (lastDef : List (String × Nat)) (s : DSEState) :
    s.live_vars ⊆ (dsePass nodes lastDef s).1.live_vars ∧
    s.live_nodes ⊆ (dsePass nodes lastDef s).1.live_nodes := by
  unfold dsePass
  exact foldVisit_mono lastDef _ (s, false)

/-- A sweep keeps live variables distinct. -/
theorem dsePass_nodup (nodes : List IRNode) (lastDef : List (String × Nat)) (s : DSEState)
    (h : s.live_vars.Nodup) : (dsePass nodes lastDef s).1.live_vars.Nodup := by
  unfold dsePass
  exact foldVisit_nodup lastDef _ (s, false) h

/-- A sweep keeps live variables inside a bound covering every input. -/
theorem dsePass_sub (nodes : List IRNode) (lastDef : List (String × Nat)) (s : DSEState)
    (B : List String) (h : s.live_vars ⊆ B) (hB : ∀ p ∈ idxZip 0 nodes, p.2.inputs ⊆ B) :
    (dsePass nodes lastDef s).1.live_vars ⊆ B := by
  unfold dsePass
  exact foldVisit_sub lastDef _ (s, false) B h
    (fun p hp => hB p (List.mem_reverse.mp hp))

/-- A changed sweep strictly grows the live variables. -/
theorem dsePass_changed (nodes : List IRNode) (lastDef : List (String × Nat)) (s : DSEState)
    (h : (dsePass nodes lastDef s).2 = true) :
    s.live_vars.length < (dsePass nodes lastDef s).1.live_vars.length := by
  unfold dsePass at h ⊢
  rcases foldVisit_changed lastDef _ (s, false) h with h2 | h2
  · cases h2
  · exact h2

/-- A sweep preserves closure. -/
theorem dsePass_closed (nodes : List IRNode) (lastDef : List (String × Nat)) (s : DSEState)
    (h : dseClosed lastDef s) : dseClosed lastDef (dsePass nodes lastDef s).1 := by
  unfold dsePass
  exact foldVisit_closed lastDef _ (s, false) h

/-- A sweep preserves support. -/
theorem dsePass_supported (nodes : List IRNode) (lastDef : List (String × Nat)) (s : DSEState)
    (h : dseSupported lastDef s) : dseSupported lastDef (dsePass nodes lastDef s).1 := by
  unfold dsePass
  exact foldVisit_supported lastDef _ (s, false) h

/-- An unchanged sweep leaves the nodes alone and has every live record's
inputs live afterwards. -/
theorem dsePass_false (nodes : List IRNode) (lastDef : List (String × Nat)) (s : DSEState)
    (h : (dsePass nodes lastDef s).2 = false) :
    (dsePass nodes lastDef s).1.live_nodes = s.live_nodes ∧
      ∀ p ∈ idxZip 0 nodes, p.1 ∈ s.live_nodes → ∀ v ∈ p.2.inputs,
        v ∈ (dsePass nodes lastDef s).1.live_vars := by
  unfold dsePass at h ⊢
  obtain ⟨hn, _, hall⟩ := foldVisit_false lastDef _ (s, false) h
  exact ⟨hn, fun p hp => hall p (List.mem_reverse.mpr hp)⟩

/-- The loop only grows the live sets. -/
theorem dseLoop_mono (nodes : List IRNode) (lastDef : List (String × Nat)) (fuel : Nat)
    (s : DSEState) :
    s.live_vars ⊆ (dseLoop nodes lastDef fuel s).live_vars ∧
    s.live_nodes ⊆ (dseLoop nodes lastDef fuel s).live_nodes := by
  induction fuel generalizing s with
  | zero => exact ⟨fun x h => h, fun x h => h⟩
  | succ fuel ih =>
    rw [dseLoop]
    split
    · have h1 := dsePass_mono nodes lastDef s
      have h2 := ih (dsePass nodes lastDef s).1
      exact ⟨fun x h => h2.1 (h1.1 h), fun x h => h2.2 (h1.2 h)⟩
    · exact dsePass_mono nodes lastDef s

/-- The loop preserves closure. -/
theorem dseLoop_closed (nodes : List IRNode) (lastDef : List (String × Nat)) (fuel : Nat)
    (s : DSEState) (h : dseClosed lastDef s) :
    dseClosed lastDef (dseLoop nodes lastDef fuel s) := by
  induction fuel generalizing s with
  | zero => exact h
  | succ fuel ih =>
    rw [dseLoop]
    split
    · exact ih _ (dsePass_closed nodes lastDef s h)
    · exact dsePass_closed nodes lastDef s h

/-- The loop preserves support. -/
theorem dseLoop_supported (nodes : List IRNode) (lastDef : List (String × Nat)) (fuel : Nat)
    (s : DSEState) (h : dseSupported lastDef s) :
    dseSupported lastDef (dseLoop nodes lastDef fuel s) := by
  induction fuel generalizing s with
  | zero => exact h
  | succ fuel ih =>
    rw [dseLoop]
    split
    · exact ih _ (dsePass_supported nodes lastDef s h)
    · exact dsePass_supported nodes lastDef s h

/-- With enough fuel the loop always ends on an unchanged sweep: the result
is the post-state of a sweep that reported no change. -/
theorem dseLoop_reach (nodes : List IRNode) (lastDef : List (String × Nat)) (B : List String)
    (hB : ∀ p ∈ idxZip 0 nodes, p.2.inputs ⊆ B) :
    ∀ (fuel : Nat) (s : DSEState), s.live_vars.Nodup → s.live_vars ⊆ B →
      B.toFinset.card + 1 ≤ fuel + s.live_vars.length →
      ∃ sp : DSEState, (dsePass nodes lastDef sp).2 = false ∧
        dseLoop nodes lastDef fuel s = (dsePass nodes lastDef sp).1 := by
  intro fuel
  induction fuel with
  | zero =>
    intro s hnd hsub hcard
    exfalso
    have h1 : s.live_vars.toFinset.card = s.live_vars.length :=
      List.toFinset_card_of_nodup hnd
    have h2 : s.live_vars.toFinset ⊆ B.toFinset := by
      intro x hx
      rw [List.mem_toFinset] at hx ⊢
      exact hsub hx
    have h3 := Finset.card_le_card h2
    omega
  | succ fuel ih =>
    intro s hnd hsub hcard
    by_cases hch : (dsePass nodes lastDef s).2 = true
    · have hlt := dsePass_changed nodes lastDef s hch
      obtain ⟨sp, h1, h2⟩ := ih (dsePass nodes lastDef s).1
        (dsePass_nodup nodes lastDef s hnd)
        (dsePass_sub nodes lastDef s B hsub hB)
        (by omega)
      refine ⟨sp, h1, ?_⟩
      rw [dseLoop]
      simp only [hch, if_true]
      exact h2
    · have hch2 : (dsePass nodes lastDef s).2 = false := by
        cases hb : (dsePass nodes lastDef s).2
        · rfl
        · exact absurd hb hch
      refine ⟨s, hch2, ?_⟩
      rw [dseLoop]
      simp only [hch2]
      rfl

/-- The final live sets of dead-store elimination: closed under last
definitions, supported by last definitions, above the initial roots, and a
fixpoint in which every live record has all its inputs live. This needs only
key distinctness of var_to_last_def. -/
theorem dseFinal_props (ir : IR) (hk : (ir.var_to_last_def.map Prod.fst).Nodup) :
    dseClosed ir.var_to_last_def (dseFinal ir) ∧
    dseSupported ir.var_to_last_def (dseFinal ir) ∧
    (dseInit ir).live_vars ⊆ (dseFinal ir).live_vars ∧
    (dseInit ir).live_nodes ⊆ (dseFinal ir).live_nodes ∧
    ∀ p ∈ idxZip 0 ir.nodes, p.1 ∈ (dseFinal ir).live_nodes → ∀ v ∈ p.2.inputs,
      v ∈ (dseFinal ir).live_vars := by
  have hmono := dseLoop_mono ir.nodes ir.var_to_last_def (dseFuel ir) (dseInit ir)
  obtain ⟨sp, hfalse, heq⟩ :=
    dseLoop_reach ir.nodes ir.var_to_last_def (dseVarBound ir) (dseVarBound_inputs ir)
      (dseFuel ir) (dseInit ir) (dseInit_nodup ir) (dseInit_sub ir)
      (by unfold dseFuel; omega)
  have hfix := dsePass_false ir.nodes ir.var_to_last_def sp hfalse
  refine ⟨dseLoop_closed _ _ _ _ (dseInit_closed ir hk),
    dseLoop_supported _ _ _ _ (dseInit_supported ir hk), hmono.1, hmono.2, ?_⟩
  intro p hp hlive v hv
  have hlive2 : p.1 ∈ sp.live_nodes := by
    rw [← hfix.1, ← heq]
    exact hlive
  rw [show dseFinal ir = (dsePass ir.nodes ir.var_to_last_def sp).1 from heq]
  exact hfix.2 p hp hlive2 v hv

/-- Membership in the node list after Graph::add_node. -/
theorem Graph.add_node_nodes_mem (g : Graph) (op : String) (ins outs phs : List String)
    (n : NodeInfo) :
    n ∈ (g.add_node op ins outs phs).nodes ↔
      n ∈ g.nodes ∨
        n = { name := op ++ "_" ++ toString g.nodes.length, op_class := op,
              inputs := ins, outputs := outs } := by
  unfold Graph.add_node
  simp [List.mem_append]

/-- Membership after folding set-style inserts. -/
theorem mem_foldl_insertNew (l : List String) (s : List String) (v : String) :
    v ∈ l.foldl (fun ps i => insertNew i ps) s ↔ v ∈ s ∨ v ∈ l := by
  induction l generalizing s with
  | nil => simp
  | cons a rest ih =>
    simp only [List.foldl_cons]
    rw [ih]
    constructor
    · rintro (hv | hv)
      · rcases mem_insertNew.mp hv with rfl | hv2
        · exact Or.inr (List.mem_cons_self _ _)
        · exact Or.inl hv2
      · exact Or.inr (List.mem_cons_of_mem _ hv)
    · rintro (hv | hv)
      · exact Or.inl (subset_insertNew _ _ hv)
      · rcases List.mem_cons.mp hv with rfl | hv2
        · exact Or.inl (self_mem_insertNew _ _)
        · exact Or.inr hv2

/-- Membership in the placeholder set after Graph::add_node. -/
theorem Graph.add_node_placeholders_mem (g : Graph) (op : String) (ins outs phs : List String)
    (v : String) :
    v ∈ (g.add_node op ins outs phs).placeholders ↔ v ∈ g.placeholders ∨ v ∈ phs := by
  unfold Graph.add_node
  exact mem_foldl_insertNew phs g.placeholders v

/-- Membership in IR::get_placeholder_inputs. -/
theorem mem_get_placeholder_inputs (ir : IR) (inputs : List String) (v : String) :
    v ∈ ir.get_placeholder_inputs inputs ↔ v ∈ inputs ∧ v ∈ ir.placeholders := by
  unfold IR.get_placeholder_inputs
  simp [List.mem_filter]

/-- The to_graph guard read back as a proposition. -/
theorem toGraphStep_cond (node : IRNode) :
    (!node.is_dead && node.type == IRNodeType.OPERATION) = true ↔
      node.is_dead = false ∧ node.type = IRNodeType.OPERATION := by
  simp [Bool.and_eq_true, Bool.not_eq_true']

/-- Nodes only accumulate along the to_graph fold. -/
theorem toGraphFold_nodes_mono (ir : IR) (l : List IRNode) (g0 : Graph) :
    g0.nodes ⊆ (l.foldl (toGraphStep ir) g0).nodes := by
  induction l generalizing g0 with
  | nil => exact fun x h => h
  | cons r rest ih =>
    simp only [List.foldl_cons]
    intro x hx
    refine ih (toGraphStep ir g0 r) ?_
    unfold toGraphStep
    split
    · exact (Graph.add_node_nodes_mem g0 _ _ _ _ x).mpr (Or.inl hx)
    · exact hx

/-- Placeholders only accumulate along the to_graph fold. -/
theorem toGraphFold_ph_mono (ir : IR) (l : List IRNode) (g0 : Graph) :
    g0.placeholders ⊆ (l.foldl (toGraphStep ir) g0).placeholders := by
  induction l generalizing g0 with
  | nil => exact fun x h => h
  | cons r rest ih =>
    simp only [List.foldl_cons]
    intro x hx
    refine ih (toGraphStep ir g0 r) ?_
    unfold toGraphStep
    split
    · exact (Graph.add_node_placeholders_mem g0 _ _ _ _ x).mpr (Or.inl hx)
    · exact hx

/-- Every node produced by the to_graph fold stems from a live operation
record with the same operator class, inputs and outputs. -/
theorem toGraphFold_nodes_sound (ir : IR) (l : List IRNode) (g0 : Graph) (n : NodeInfo)
    (h : n ∈ (l.foldl (toGraphStep ir) g0).nodes) :
    n ∈ g0.nodes ∨ ∃ r ∈ l, r.is_dead = false ∧ r.type = IRNodeType.OPERATION ∧
      n.op_class = r.op_class ∧ n.inputs = r.inputs ∧ n.outputs = r.outputs := by
  induction l generalizing g0 with
  | nil => exact Or.inl h
  | cons r rest ih =>
    simp only [List.foldl_cons] at h
    rcases ih (toGraphStep ir g0 r) h with h2 | ⟨r2, hr2, hd, hop, hf⟩
    · unfold toGraphStep at h2
      split at h2
      · next hcond =>
        rcases (Graph.add_node_nodes_mem g0 _ _ _ _ n).mp h2 with h3 | h3
        · exact Or.inl h3
        · obtain ⟨hd, hop⟩ := (toGraphStep_cond r).mp hcond
          subst h3
          exact Or.inr ⟨r, List.mem_cons_self _ _, hd, hop, rfl, rfl, rfl⟩
      · exact Or.inl h2
    · exact Or.inr ⟨r2, List.mem_cons_of_mem _ hr2, hd, hop, hf⟩

/-- Every live operation record contributes a node to the to_graph fold. -/
theorem toGraphFold_nodes_complete (ir : IR) (l : List IRNode) :
    ∀ (g0 : Graph) (r : IRNode), r ∈ l → r.is_dead = false →
      r.type = IRNodeType.OPERATION →
      ∃ n ∈ (l.foldl (toGraphStep ir) g0).nodes,
        n.op_class = r.op_class ∧ n.inputs = r.inputs ∧ n.outputs = r.outputs := by
  induction l with
  | nil =>
    intro g0 r hmem _ _
    cases hmem
  | cons r2 rest ih =>
    intro g0 r hmem hd hop
    simp only [List.foldl_cons]
    rcases List.mem_cons.mp hmem with rfl | hmem2
    · have hcond : (!r.is_dead && r.type == IRNodeType.OPERATION) = true :=
        (toGraphStep_cond r).mpr ⟨hd, hop⟩
      refine ⟨{ name := r.op_class ++ "_" ++ toString g0.nodes.length, op_class := r.op_class,
                inputs := r.inputs, outputs := r.outputs }, ?_, rfl, rfl, rfl⟩
      apply toGraphFold_nodes_mono ir rest
      unfold toGraphStep
      rw [if_pos hcond]
      exact (Graph.add_node_nodes_mem g0 _ _ _ _ _).mpr (Or.inr rfl)
    · exact ih (toGraphStep ir g0 r2) r hmem2 hd hop

/-- The placeholder set produced by the to_graph fold, characterized. -/
theorem toGraphFold_ph (ir : IR) (l : List IRNode) (g0 : Graph) (v : String) :
    v ∈ (l.foldl (toGraphStep ir) g0).placeholders ↔
      v ∈ g0.placeholders ∨ ∃ r ∈ l, r.is_dead = false ∧ r.type = IRNodeType.OPERATION ∧
        v ∈ r.inputs ∧ v ∈ ir.placeholders := by
  induction l generalizing g0 with
  | nil => simp
  | cons r rest ih =>
    simp only [List.foldl_cons]
    rw [ih]
    constructor
    · rintro (hv | ⟨r2, hr2, hd, hop, hin, hph⟩)
      · unfold toGraphStep at hv
        split at hv
        · next hcond =>
          rcases (Graph.add_node_placeholders_mem g0 _ _ _ _ v).mp hv with h3 | h3
          · exact Or.inl h3
          · obtain ⟨hd, hop⟩ := (toGraphStep_cond r).mp hcond
            obtain ⟨hin, hph⟩ := (mem_get_placeholder_inputs ir r.inputs v).mp h3
            exact Or.inr ⟨r, List.mem_cons_self _ _, hd, hop, hin, hph⟩
        · exact Or.inl hv
      · exact Or.inr ⟨r2, List.mem_cons_of_mem _ hr2, hd, hop, hin, hph⟩
    · rintro (hv | ⟨r2, hr2, hd, hop, hin, hph⟩)
      · refine Or.inl ?_
        unfold toGraphStep
        split
        · exact (Graph.add_node_placeholders_mem g0 _ _ _ _ v).mpr (Or.inl hv)
        · exact hv
      · rcases List.mem_cons.mp hr2 with rfl | hr3
        · refine Or.inl ?_
          have hcond : (!r2.is_dead && r2.type == IRNodeType.OPERATION) = true :=
            (toGraphStep_cond r2).mpr ⟨hd, hop⟩
          unfold toGraphStep
          rw [if_pos hcond]
          exact (Graph.add_node_placeholders_mem g0 _ _ _ _ v).mpr
            (Or.inr ((mem_get_placeholder_inputs ir r2.inputs v).mpr ⟨hin, hph⟩))
        · exact Or.inr ⟨r2, hr3, hd, hop, hin, hph⟩

/-- The optimized IR, element view of its records. -/
theorem optimize_nodes_getElem (ir : IR) (j : Nat) :
    (ir.optimize).nodes[j]? = (ir.nodes[j]?).map
      (fun n => { n with is_dead := decide (j ∉ (dseFinal ir).live_nodes) }) := by
  unfold IR.optimize IR.dead_store_elimination
  rw [markDead_getElem]
  simp

/-- Optimization leaves the placeholder set alone. -/
theorem optimize_placeholders (ir : IR) : (ir.optimize).placeholders = ir.placeholders := rfl

/-- Optimization leaves the last-definition map alone. -/
theorem optimize_lastDef (ir : IR) : (ir.optimize).var_to_last_def = ir.var_to_last_def := rfl

/-- Membership in the optimized record list. -/
theorem optimize_nodes_mem (ir : IR) (r : IRNode) :
    r ∈ (ir.optimize).nodes ↔ ∃ j : Nat, ∃ n : IRNode, ir.nodes[j]? = some n ∧
      r = { n with is_dead := decide (j ∉ (dseFinal ir).live_nodes) } := by
  rw [List.mem_iff_getElem?]
  constructor
  · rintro ⟨j, hj⟩
    rw [optimize_nodes_getElem] at hj
    cases hn : ir.nodes[j]? with
    | none =>
      rw [hn] at hj
      cases hj
    | some n =>
      rw [hn] at hj
      simp only [Option.map_some', Option.some_inj] at hj
      exact ⟨j, n, hn, hj.symm⟩
  · rintro ⟨j, n, hn, rfl⟩
    refine ⟨j, ?_⟩
    rw [optimize_nodes_getElem, hn]
    rfl

/-- Program::graph unfolded. -/
theorem Program.graph_eq (p : Program) : p.graph = (p.ir.optimize).to_graph := rfl

/-- Every graph node stems from a live operation record with the same
operator class, inputs and outputs. -/
theorem graph_nodes_sound (ir : IR) (n : NodeInfo)
    (h : n ∈ ((ir.optimize).to_graph).nodes) :
    ∃ (j : Nat) (r : IRNode), ir.nodes[j]? = some r ∧ j ∈ (dseFinal ir).live_nodes ∧
      r.type = IRNodeType.OPERATION ∧
      n.op_class = r.op_class ∧ n.inputs = r.inputs ∧ n.outputs = r.outputs := by
  unfold IR.to_graph at h
  rcases toGraphFold_nodes_sound _ _ _ _ h with h2 | ⟨r', hr', hd, hop, hf⟩
  · simp at h2
  · obtain ⟨j, n0, hn0, rfl⟩ := (optimize_nodes_mem ir r').mp hr'
    refine ⟨j, n0, hn0, ?_, hop, hf⟩
    have hd2 : decide (j ∉ (dseFinal ir).live_nodes) = false := hd
    exact not_not.mp (of_decide_eq_false hd2)

/-- Every live operation record appears as a graph node. -/
theorem graph_nodes_complete (ir : IR) (j : Nat) (r : IRNode)
    (hj : ir.nodes[j]? = some r) (hlive : j ∈ (dseFinal ir).live_nodes)
    (hop : r.type = IRNodeType.OPERATION) :
    ∃ n ∈ ((ir.optimize).to_graph).nodes,
      n.op_class = r.op_class ∧ n.inputs = r.inputs ∧ n.outputs = r.outputs := by
  unfold IR.to_graph
  have hmem : ({ r with is_dead := decide (j ∉ (dseFinal ir).live_nodes) } : IRNode) ∈
      (ir.optimize).nodes :=
    (optimize_nodes_mem ir _).mpr ⟨j, r, hj, rfl⟩
  have hd : ({ r with is_dead := decide (j ∉ (dseFinal ir).live_nodes) } : IRNode).is_dead =
      false := by
    simp [hlive]
  exact toGraphFold_nodes_complete (ir.optimize) (ir.optimize).nodes
    { nodes := [], placeholders := [] }
    ({ r with is_dead := decide (j ∉ (dseFinal ir).live_nodes) }) hmem hd hop

/-- Graph placeholder membership: exactly the declared placeholders that are
consumed by some live operation record. -/
theorem graph_ph_iff (ir : IR) (v : String) :
    v ∈ ((ir.optimize).to_graph).placeholders ↔
      v ∈ ir.placeholders ∧ ∃ (j : Nat) (r : IRNode), ir.nodes[j]? = some r ∧
        j ∈ (dseFinal ir).live_nodes ∧ r.type = IRNodeType.OPERATION ∧ v ∈ r.inputs := by
  unfold IR.to_graph
  rw [toGraphFold_ph]
  constructor
  · rintro (hv | ⟨r', hr', hd, hop, hin, hph⟩)
    · simp at hv
    · obtain ⟨j, n0, hn0, rfl⟩ := (optimize_nodes_mem ir r').mp hr'
      have hd2 : decide (j ∉ (dseFinal ir).live_nodes) = false := hd
      exact ⟨hph, j, n0, hn0, not_not.mp (of_decide_eq_false hd2), hop, hin⟩
  · rintro ⟨hph, j, r, hj, hlive, hop, hin⟩
    refine Or.inr ⟨{ r with is_dead := decide (j ∉ (dseFinal ir).live_nodes) },
      (optimize_nodes_mem ir _).mpr ⟨j, r, hj, rfl⟩, by simp [hlive], hop, hin, hph⟩

/-- A session in the style of the IfElse and Overwrite tests: record 0
produces x; record 1 consumes x together with the never-produced w; record 2
overwrites x; records 3, 4 and 5 add a two-output producer of q and z, an
overwrite of q, and a consumer of q and z. All names are explicit. -/
def cmdsLiveness : List Cmd :=
  [Cmd.regVar ("x"), Cmd.regVar ("y"), Cmd.regVar ("w"), Cmd.regVar ("out"),
   Cmd.commit ("mk") [] [("x")],
   Cmd.commit ("use") [("x"), ("w")] [("y")],
   Cmd.commit ("mk2") [] [("x")],
   Cmd.regVar ("q"), Cmd.regVar ("z"), Cmd.regVar ("t"),
   Cmd.commit ("pair") [] [("q"), ("z")],
   Cmd.commit ("mk3") [] [("q")],
   Cmd.commit ("use2") [("q"), ("z")] [("t")]]

/-- Two records producing the same explicit identifier, nothing else. -/
def cmdsTwoWriters : List Cmd :=
  [Cmd.regVar ("x"), Cmd.commit ("a1") [] [("x")], Cmd.commit ("a2") [] [("x")]]

/-- A consumed placeholder, a never-consumed placeholder, and one operation. -/
def cmdsUnusedPlaceholder : List Cmd :=
  [Cmd.regPlaceholder ("input"), Cmd.regPlaceholder ("unused"), Cmd.regVar ("output"),
   Cmd.commit ("add_one") [("input")] [("output")]]

/-- A two-output record whose first output is later overwritten while its
second output stays in use. -/
def cmdsMultiOut : List Cmd :=
  [Cmd.regVar ("x"), Cmd.regVar ("w"), Cmd.regVar ("y"),
   Cmd.commit ("pair") [] [("x"), ("w")],
   Cmd.commit ("mk") [] [("x")],
   Cmd.commit ("use") [("w")] [("y")]]

/-- The AddOne1 test session: one placeholder, one named output, one node. -/
def cmdsAddOne : List Cmd :=
  [Cmd.regPlaceholder ("input"), Cmd.regVar ("output"),
   Cmd.commit ("add_one") [("input")] [("output")]]

/-- The pinned Scenario 2 session with explicit names c and b, lowered
through the Var/Op layer exactly as the source's operator overloads commit
records: a copy into c, two add_one reassignments of c, a copy into b, and a
disjoint add_one into output. -/
def scenario2Session : Session :=
  Session.initial
    |> Session.declarePlaceholder ("input")
    |> Session.declareVar ("output")
    |> Session.declareVar ("c")
    |> Session.declareVar ("b")
    |> Session.assignCopy ("c") ("input")
    |> Session.assignOpCall ("c") ("add_one") [("c")]
    |> Session.assignOpCall ("c") ("add_one") [("c")]
    |> Session.assignCopy ("b") ("c")
    |> Session.assignOpCall ("output") ("add_one") [("input")]

/-- The Bool root test of the claims, unfolded into a proposition. -/
theorem isRootSpec_eq_true_iff (ir : IR) (v : String) :
    isRootSpec ir v = true ↔
      v ∈ ir.placeholders ∨ (containsSubstr v ("__var") = false ∧
        ∃ r ∈ ir.nodes, v ∈ r.outputs) := by
  unfold isRootSpec
  simp [List.any_eq_true, Bool.not_eq_true']

/-- On an IR satisfying the invariant, the claims' root test coincides with
membership of the last-definition map plus the code's root condition. -/
theorem isRootSpec_defined_iff (ir : IR) (hinv : IRInv ir) (v : String) :
    isRootSpec ir v = true ↔
      (∃ i : Nat, (v, i) ∈ ir.var_to_last_def) ∧
        (v ∈ ir.placeholders ∨ containsSubstr v ("__var") = false) := by
  rw [isRootSpec_eq_true_iff]
  constructor
  · rintro (hph | ⟨hnc, r, hrm, hvr⟩)
    · obtain ⟨i, hi⟩ := hinv.placeholders_defined v hph
      exact ⟨⟨i, lookupL_mem hi⟩, Or.inl hph⟩
    · obtain ⟨k, hk⟩ := List.mem_iff_getElem?.mp hrm
      obtain ⟨i, hi⟩ := hinv.lastDef_complete k r hk v hvr
      exact ⟨⟨i, lookupL_mem hi⟩, Or.inr hnc⟩
  · rintro ⟨⟨i, hpair⟩, hph | hnc⟩
    · exact Or.inl hph
    · refine Or.inr ⟨hnc, ?_⟩
      have hlook := mem_lookupL hinv.keysNodup hpair
      obtain ⟨r, hr, hvr, _⟩ := hinv.lastDef_sound v i hlook
      exact ⟨r, List.mem_iff_getElem?.mpr ⟨i, hr⟩, hvr⟩

/-- C1 counterexample: the liveness-soundness claim fails on the code. In the
cmdsLiveness session the finalized graph consumes x before its only surviving
producer (x's earlier producer is dead because liveness resolves x through
its final last definition), consumes w which no record ever produces and
which is no placeholder, and consumes q which two earlier graph nodes
produce, so the placeholder-or-exactly-one-earlier-producer property is
violated three ways at once. -/
theorem c1_counterexample :
    ¬ livenessSoundSpec (Program.runCmds Program.initial cmdsLiveness).graph := by decide

/-- C1 (amended): for every session, every identifier consumed by a node of
the finalized graph that is produced by at least one record of the session is
either a placeholder of the graph or appears in the outputs of at least one
graph node; the producer may occur later than the consumer and need not be
unique, and a consumed identifier that no record produces may be absent from
both. -/
theorem c1_liveness_amended (cmds : List Cmd) (n : NodeInfo) (v : String)
    (hn : n ∈ (Program.runCmds Program.initial cmds).graph.nodes)
    (hv : v ∈ n.inputs)
    (hdef : ∃ r ∈ (Program.runCmds Program.initial cmds).ir.nodes, v ∈ r.outputs) :
    (Program.runCmds Program.initial cmds).graph.is_placeholder v = true ∨
      ∃ n2 ∈ (Program.runCmds Program.initial cmds).graph.nodes, v ∈ n2.outputs := by
  have hinv := IRInv_runCmds Program.initial cmds IRInv_initial
  rw [Program.graph_eq] at hn ⊢
  obtain ⟨cl, su, hiv, hin2, hfix⟩ :=
    dseFinal_props (Program.runCmds Program.initial cmds).ir hinv.keysNodup
  obtain ⟨j, r, hj, hlive, hop, hcls, hins, houts⟩ :=
    graph_nodes_sound (Program.runCmds Program.initial cmds).ir n hn
  have hvr : v ∈ r.inputs := by
    rw [← hins]
    exact hv
  have hvlive : v ∈ (dseFinal (Program.runCmds Program.initial cmds).ir).live_vars :=
    hfix (j, r) (mem_idxZip_iff.mpr hj) hlive v hvr
  obtain ⟨r2, hr2mem, hvr2⟩ := hdef
  obtain ⟨k, hk⟩ := List.mem_iff_getElem?.mp hr2mem
  obtain ⟨i, hlook⟩ := hinv.lastDef_complete k r2 hk v hvr2
  have hilive : i ∈ (dseFinal (Program.runCmds Program.initial cmds).ir).live_nodes :=
    cl v hvlive i hlook
  obtain ⟨ri, hri, hvi, _⟩ := hinv.lastDef_sound v i hlook
  have hrimem : ri ∈ (Program.runCmds Program.initial cmds).ir.nodes :=
    List.mem_iff_getElem?.mpr ⟨i, hri⟩
  rcases hinv.types_ok ri hrimem with hopi | ⟨hpi, houtsi, hnamei, _⟩
  · obtain ⟨n2, hn2, _, _, ho2⟩ :=
      graph_nodes_complete (Program.runCmds Program.initial cmds).ir i ri hri hilive hopi
    refine Or.inr ⟨n2, hn2, ?_⟩
    rw [ho2]
    exact hvi
  · have hveq : v = ri.name := by
      rw [houtsi] at hvi
      exact List.mem_singleton.mp hvi
    refine Or.inl ?_
    simp only [Graph.is_placeholder, decide_eq_true_eq]
    refine (graph_ph_iff (Program.runCmds Program.initial cmds).ir v).mpr
      ⟨?_, j, r, hj, hlive, hop, hvr⟩
    rw [hveq]
    exact hnamei

/-- C1 witness: in the add_one session, input is consumed, produced by its
placeholder record, and ends up a placeholder of the graph. -/
theorem c1_liveness_amended_witness :
    (Program.runCmds Program.initial cmdsAddOne).graph.is_placeholder ("input") = true ∨
      ∃ n2 ∈ (Program.runCmds Program.initial cmdsAddOne).graph.nodes, ("input") ∈ n2.outputs :=
  c1_liveness_amended cmdsAddOne
    (NodeInfo.mk ("add_one_0") ("add_one") [("input")] [("output")]) ("input")
    (by decide) (by decide) (by decide)

/-- C2 counterexample: the initial live-node set does not contain every
record producing a root: in cmdsTwoWriters both records produce the explicit
root x, but only the later one (the last definition) is initially live. -/
theorem c2_counterexample :
    ¬ (∀ p ∈ idxZip 0 (Program.runCmds Program.initial cmdsTwoWriters).ir.nodes,
      (∃ v ∈ p.2.outputs,
        isRootSpec (Program.runCmds Program.initial cmdsTwoWriters).ir v = true) →
      p.1 ∈ (dseInit (Program.runCmds Program.initial cmdsTwoWriters).ir).live_nodes) := by
  decide

/-- C2 (amended): at the start of dead-code elimination the initial live
variables are exactly the root identifiers (placeholders and non-internal
identifiers produced by some record), and the initial live nodes are exactly
the last-definition indices of the roots: a record producing a root is
initially live only when it is the most recent producer of some root. -/
theorem c2_init_amended (cmds : List Cmd) :
    (∀ v : String,
      v ∈ (dseInit (Program.runCmds Program.initial cmds).ir).live_vars ↔
        isRootSpec (Program.runCmds Program.initial cmds).ir v = true) ∧
    ∀ i : Nat,
      i ∈ (dseInit (Program.runCmds Program.initial cmds).ir).live_nodes ↔
        ∃ v : String, isRootSpec (Program.runCmds Program.initial cmds).ir v = true ∧
          lookupL (Program.runCmds Program.initial cmds).ir.var_to_last_def v = some i := by
  have hinv := IRInv_runCmds Program.initial cmds IRInv_initial
  constructor
  · intro v
    rw [dseInit_vars_iff, isRootSpec_defined_iff _ hinv]
    constructor
    · rintro ⟨i, hpair, hcond⟩
      exact ⟨⟨i, hpair⟩, hcond⟩
    · rintro ⟨⟨i, hpair⟩, hcond⟩
      exact ⟨i, hpair, hcond⟩
  · intro i
    rw [dseInit_nodes_iff]
    constructor
    · rintro ⟨v, hpair, hcond⟩
      exact ⟨v, (isRootSpec_defined_iff _ hinv v).mpr ⟨⟨i, hpair⟩, hcond⟩,
        mem_lookupL hinv.keysNodup hpair⟩
    · rintro ⟨v, hroot, hlook⟩
      exact ⟨v, lookupL_mem hlook,
        ((isRootSpec_defined_iff _ hinv v).mp hroot).2⟩

/-- C3 counterexample: the graph does not carry the full declared placeholder
set: the never-consumed placeholder unused is dropped by finalization. -/
theorem c3_counterexample :
    ¬ (∀ v ∈ (Program.runCmds Program.initial cmdsUnusedPlaceholder).ir.placeholders,
      (Program.runCmds Program.initial cmdsUnusedPlaceholder).graph.is_placeholder v =
        true) := by
  decide

/-- C3 (amended): for every session, is_placeholder on the finalized graph
holds exactly for the declared placeholders that appear as an input of some
surviving node; unreferenced placeholders are not carried over. -/
theorem c3_placeholders_amended (cmds : List Cmd) (v : String) :
    (Program.runCmds Program.initial cmds).graph.is_placeholder v = true ↔
      v ∈ (Program.runCmds Program.initial cmds).ir.placeholders ∧
        ∃ n ∈ (Program.runCmds Program.initial cmds).graph.nodes, v ∈ n.inputs := by
  rw [Program.graph_eq]
  simp only [Graph.is_placeholder, decide_eq_true_eq]
  rw [graph_ph_iff]
  constructor
  · rintro ⟨hph, j, r, hj, hlive, hop, hin⟩
    obtain ⟨n, hn, _, hins, _⟩ :=
      graph_nodes_complete (Program.runCmds Program.initial cmds).ir j r hj hlive hop
    refine ⟨hph, n, hn, ?_⟩
    rw [hins]
    exact hin
  · rintro ⟨hph, n, hn, hin⟩
    obtain ⟨j, r, hj, hlive, hop, _, hins, _⟩ :=
      graph_nodes_sound (Program.runCmds Program.initial cmds).ir n hn
    refine ⟨hph, j, r, hj, hlive, hop, ?_⟩
    rw [← hins]
    exact hin

/-- C4 counterexample: the pinned Scenario 2 session (explicit names b and c)
does not yield 4 nodes. -/
theorem c4_counterexample : scenario2Session.prog.graph.node_count ≠ 4 := by decide

/-- C4 (amended): the Scenario 2 session with explicit names yields exactly 3
nodes: the final add_one of the c chain, the copy into b, and the disjoint
output node. The first two records of the c chain are dead even though c is a
root, because liveness resolves c through its final last definition, which is
the second add_one itself. -/
theorem c4_scenario2_amended :
    scenario2Session.prog.graph.node_count = 3 ∧
    scenario2Session.prog.graph.nodes.map (fun n => (n.op_class, n.inputs, n.outputs)) =
      [(("add_one"), [("c")], [("c")]), (("copy"), [("c")], [("b")]),
       (("add_one"), [("input")], [("output")])] := by decide

/-- C5 counterexample: overwrite-wins fails as stated: in cmdsMultiOut,
record 0 produces x (besides w), record 1 later produces x, and no record
ever consumes x, yet the finalized graph retains record 0, which stays live
through its other output w. -/
theorem c5_counterexample :
    ∃ n ∈ (Program.runCmds Program.initial cmdsMultiOut).graph.nodes,
      n.op_class = ("pair") ∧ ("x") ∈ n.outputs := by decide

/-- C5 (amended): when record A's only output is X, record B is the last
record producing X with A strictly earlier, and X is a root (a placeholder or
non-internal), the optimized IR marks A dead and keeps B live, and when B is
an operation record the finalized graph contains a node with B's operator
class, inputs and outputs, producing X. -/
theorem c5_overwrite_amended (cmds : List Cmd) (a b : Nat) (x : String) (ra rb : IRNode)
    (ha : (Program.runCmds Program.initial cmds).ir.nodes[a]? = some ra)
    (hb : (Program.runCmds Program.initial cmds).ir.nodes[b]? = some rb)
    (houts : ra.outputs = [x])
    (hxb : x ∈ rb.outputs)
    (hab : a < b)
    (hlast : ∀ (k : Nat) (rk : IRNode),
      (Program.runCmds Program.initial cmds).ir.nodes[k]? = some rk → x ∈ rk.outputs → k ≤ b)
    (hroot : x ∈ (Program.runCmds Program.initial cmds).ir.placeholders ∨
      containsSubstr x ("__var") = false) :
    (∃ ra2 : IRNode,
      ((Program.runCmds Program.initial cmds).ir.optimize).nodes[a]? = some ra2 ∧
        ra2.is_dead = true) ∧
    (∃ rb2 : IRNode,
      ((Program.runCmds Program.initial cmds).ir.optimize).nodes[b]? = some rb2 ∧
        rb2.is_dead = false) ∧
    (rb.type = IRNodeType.OPERATION →
      ∃ n ∈ (Program.runCmds Program.initial cmds).graph.nodes,
        n.op_class = rb.op_class ∧ n.inputs = rb.inputs ∧ n.outputs = rb.outputs ∧
          x ∈ n.outputs) := by
  have hinv := IRInv_runCmds Program.initial cmds IRInv_initial
  obtain ⟨cl, su, hiv, hin2, hfix⟩ :=
    dseFinal_props (Program.runCmds Program.initial cmds).ir hinv.keysNodup
  have hlook : lookupL (Program.runCmds Program.initial cmds).ir.var_to_last_def x = some b := by
    obtain ⟨i, hi⟩ := hinv.lastDef_complete b rb hb x hxb
    obtain ⟨ri, hri, hxi, hlat⟩ := hinv.lastDef_sound x i hi
    have h1 : i ≤ b := hlast i ri hri hxi
    have h2 : b ≤ i := hlat b rb hb hxb
    have : i = b := Nat.le_antisymm h1 h2
    rw [← this]
    exact hi
  have hblive : b ∈ (dseFinal (Program.runCmds Program.initial cmds).ir).live_nodes := by
    refine hin2 ?_
    exact (dseInit_nodes_iff _ b).mpr ⟨x, lookupL_mem hlook, hroot⟩
  have hadead : a ∉ (dseFinal (Program.runCmds Program.initial cmds).ir).live_nodes := by
    intro hmem
    obtain ⟨v, hv⟩ := su a hmem
    obtain ⟨rv, hrv, hvout, _⟩ := hinv.lastDef_sound v a hv
    rw [ha] at hrv
    cases hrv
    rw [houts] at hvout
    have hveq : v = x := List.mem_singleton.mp hvout
    rw [hveq] at hv
    rw [hlook] at hv
    have hba : b = a := Option.some_inj.mp hv
    omega
  have hra2 : ((Program.runCmds Program.initial cmds).ir.optimize).nodes[a]? = some { ra with is_dead := decide (a ∉ (dseFinal (Program.runCmds Program.initial cmds).ir).live_nodes) } := by
    rw [optimize_nodes_getElem, ha]
    rfl
  have hrb2 : ((Program.runCmds Program.initial cmds).ir.optimize).nodes[b]? = some { rb with is_dead := decide (b ∉ (dseFinal (Program.runCmds Program.initial cmds).ir).live_nodes) } := by
    rw [optimize_nodes_getElem, hb]
    rfl
  refine ⟨⟨_, hra2, by simp [hadead]⟩, ⟨_, hrb2, by simp [hblive]⟩, ?_⟩
  · intro hop
    rw [Program.graph_eq]
    obtain ⟨n, hn, hcls, hins, houts2⟩ :=
      graph_nodes_complete (Program.runCmds Program.initial cmds).ir b rb hb hblive hop
    refine ⟨n, hn, hcls, hins, houts2, ?_⟩
    rw [houts2]
    exact hxb

/-- C5 witness: in the two-writer session a1 is eliminated, a2 survives and
appears in the graph producing x. -/
theorem c5_overwrite_amended_witness :
    (∃ ra2 : IRNode,
      ((Program.runCmds Program.initial cmdsTwoWriters).ir.optimize).nodes[0]? = some ra2 ∧
        ra2.is_dead = true) ∧
    (∃ rb2 : IRNode,
      ((Program.runCmds Program.initial cmdsTwoWriters).ir.optimize).nodes[1]? = some rb2 ∧
        rb2.is_dead = false) ∧
    ((IRNode.mkOperation 1 ("a2") [] [("x")]).type = IRNodeType.OPERATION →
      ∃ n ∈ (Program.runCmds Program.initial cmdsTwoWriters).graph.nodes,
        n.op_class = (IRNode.mkOperation 1 ("a2") [] [("x")]).op_class ∧
        n.inputs = (IRNode.mkOperation 1 ("a2") [] [("x")]).inputs ∧
        n.outputs = (IRNode.mkOperation 1 ("a2") [] [("x")]).outputs ∧
          ("x") ∈ n.outputs) :=
  c5_overwrite_amended cmdsTwoWriters 0 1 ("x")
    (IRNode.mkOperation 0 ("a1") [] [("x")]) (IRNode.mkOperation 1 ("a2") [] [("x")])
    (by decide) (by decide) (by decide) (by decide) (by decide)
    (by
      intro k rk hk _
      have h1 := getElem_lt_length hk
      have h2 : (Program.runCmds Program.initial cmdsTwoWriters).ir.nodes.length = 2 := by
        decide
      omega)
    (by decide)

/-- C6: calling graph() twice on an unmodified session yields graphs with
identical node lists and identical placeholder sets: the call works on a copy
of the IR, so the second call sees the same state and the result is a pure
function of it. -/
theorem c6_idempotent_finalize (p : Program) :
    ((Program.graphOp (Program.graphOp p).2).1).nodes = ((Program.graphOp p).1).nodes ∧
    ((Program.graphOp (Program.graphOp p).2).1).placeholders =
      ((Program.graphOp p).1).placeholders :=
  ⟨rfl, rfl⟩

/-- C7: graph() leaves the session state untouched (it optimizes a copy of
the IR), and recording afterwards proceeds exactly as if the call had never
happened; the returned Graph is an independent value, so later steps cannot
alter it. -/
theorem c7_snapshot_independence (p : Program) :
    (Program.graphOp p).2 = p ∧
    ∀ cmds : List Cmd, Program.runCmds (Program.graphOp p).2 cmds = Program.runCmds p cmds :=
  ⟨rfl, fun _ => rfl⟩

/-- C8: registering an explicit name already present in the session always
fails with the duplicate-name error and the failed step leaves the session
(in particular its name set) unchanged, since the throw precedes any
mutation; registering a fresh name or the internal sentinel succeeds and
records the name. -/
theorem c8_duplicate_name (p : Program) (name : String) :
    (name ≠ ("__var") ∧ name ∈ p.var_names →
      p.register_var_name name = Except.error (dupNameMsg name) ∧
      p.step (Cmd.regVar name) = p) ∧
    (¬ (name ≠ ("__var") ∧ name ∈ p.var_names) →
      p.register_var_name name =
        Except.ok { p with var_names := insertNew name p.var_names } ∧
      name ∈ (p.step (Cmd.regVar name)).var_names) := by
  constructor
  · intro hc
    have h1 : p.register_var_name name = Except.error (dupNameMsg name) := by
      unfold Program.register_var_name
      rw [if_pos hc]
    refine ⟨h1, ?_⟩
    simp only [Program.step, h1]
  · intro hc
    have h1 : p.register_var_name name =
        Except.ok { p with var_names := insertNew name p.var_names } := by
      unfold Program.register_var_name
      rw [if_neg hc]
    refine ⟨h1, ?_⟩
    simp only [Program.step, h1]
    exact self_mem_insertNew name p.var_names

/-- C8 witness: after registering a, a second registration of a fails with
the duplicate-name error and changes nothing, while the first registration of
a succeeded and recorded the name. -/
theorem c8_duplicate_name_witness :
    ((Program.step Program.initial (Cmd.regVar ("a"))).register_var_name ("a") =
        Except.error (dupNameMsg ("a")) ∧
      (Program.step Program.initial (Cmd.regVar ("a"))).step (Cmd.regVar ("a")) =
        Program.step Program.initial (Cmd.regVar ("a"))) ∧
    (Program.initial.register_var_name ("a") =
        Except.ok { Program.initial with
          var_names := insertNew ("a") Program.initial.var_names } ∧
      ("a") ∈ (Program.initial.step (Cmd.regVar ("a"))).var_names) :=
  ⟨(c8_duplicate_name (Program.step Program.initial (Cmd.regVar ("a"))) ("a")).1 (by decide),
   (c8_duplicate_name Program.initial ("a")).2 (by decide)⟩

/-- The move chain from a live guard: the moved-from guards are all inactive
and the final guard carries the active flag. -/
theorem moveChain_eq (k : Nat) :
    moveChain { active := true } k =
      (List.replicate k { active := false }, { active := true }) := by
  induction k with
  | zero => rfl
  | succ k2 ih =>
    simp only [moveChain, Scope.moveCtor, ih, List.replicate_succ]

/-- Destructing any number of inactive guards is a no-op. -/
theorem foldDtor_replicate (k : Nat) (σ : List Nat) (g : Scope) :
    foldDtor (List.replicate k { active := false } ++ [g]) σ = foldDtor [g] σ := by
  induction k with
  | zero => rfl
  | succ k2 ih =>
    simp only [List.replicate_succ, List.cons_append, foldDtor, Scope.dtor]
    exact ih

/-- C9: constructing a scope guard on a non-null program pushes it exactly
once; a null program is rejected with the stack untouched; after any number
of moves, every moved-from guard is inactive and destructs as a no-op, the
final guard alone is active, and destructing the whole chain pops exactly
once, restoring the original stack. -/
theorem c9_scope_guard (stack : List Nat) (pr : Nat) (k : Nat) :
    Scope.init none stack = Except.error ("Cannot create scope with null program") ∧
    Scope.init (some pr) stack = Except.ok ({ active := true }, pr :: stack) ∧
    (∀ d ∈ (moveChain { active := true } k).1, d.active = false ∧
      ∀ σ : List Nat, Scope.dtor d σ = Except.ok σ) ∧
    (moveChain { active := true } k).2.active = true ∧
    foldDtor ((moveChain { active := true } k).1 ++ [(moveChain { active := true } k).2])
      (pr :: stack) = Except.ok stack := by
  refine ⟨rfl, rfl, ?_, ?_, ?_⟩
  · intro d hd
    rw [moveChain_eq] at hd
    have hde : d = { active := false } := List.eq_of_mem_replicate hd
    subst hde
    exact ⟨rfl, fun σ => rfl⟩
  · rw [moveChain_eq]
  · rw [moveChain_eq]
    rw [foldDtor_replicate]
    rfl

/-- C9 witness: a guard moved twice still produces exactly one pop and
restores the surrounding stack. -/
theorem c9_scope_guard_witness :
    foldDtor ((moveChain { active := true } 2).1 ++ [(moveChain { active := true } 2).2])
      (3 :: [5, 7]) = Except.ok [5, 7] :=
  (c9_scope_guard [5, 7] 3 2).2.2.2.2

/-- C10: for a node name matching no node of the graph, has_node is false,
both consumes overloads and produces are false for every queried value, and
to_string is the empty string; all five queries are pure functions of the
graph, so no query mutates it or signals an error. -/
theorem c10_unknown_queries (g : Graph) (node_name : String)
    (h : ∀ n ∈ g.nodes, n.name ≠ node_name) :
    g.has_node node_name = false ∧
    (∀ v : String, g.consumes node_name v = false) ∧
    (∀ vs : List String, g.consumesAll node_name vs = false) ∧
    (∀ v : String, g.produces node_name v = false) ∧
    g.to_string node_name = ("") := by
  have hfind : g.nodes.find? (fun node => node.name == node_name) = none := by
    rw [List.find?_eq_none]
    intro n hn
    simp [h n hn]
  refine ⟨?_, ?_, ?_, ?_, ?_⟩
  · rw [Graph.has_node, List.any_eq_false]
    intro n hn
    simp [h n hn]
  · intro v
    rw [Graph.consumes, hfind]
  · intro vs
    rw [Graph.consumesAll, hfind]
  · intro v
    rw [Graph.produces, hfind]
  · rw [Graph.to_string, hfind]

/-- C10 witness: the queries on the add_one session's graph all reject the
unknown node name nosuch. -/
theorem c10_unknown_queries_witness :
    (Program.runCmds Program.initial cmdsAddOne).graph.has_node ("nosuch") = false ∧
    (Program.runCmds Program.initial cmdsAddOne).graph.consumes ("nosuch") ("input") = false ∧
    (Program.runCmds Program.initial cmdsAddOne).graph.consumesAll ("nosuch")
      [("input")] = false ∧
    (Program.runCmds Program.initial cmdsAddOne).graph.produces ("nosuch") ("output") = false ∧
    (Program.runCmds Program.initial cmdsAddOne).graph.to_string ("nosuch") = ("") :=
  ⟨(c10_unknown_queries _ ("nosuch") (by decide)).1,
   (c10_unknown_queries _ ("nosuch") (by decide)).2.1 ("input"),
   (c10_unknown_queries _ ("nosuch") (by decide)).2.2.1 [("input")],
   (c10_unknown_queries _ ("nosuch") (by decide)).2.2.2.1 ("output"),
   (c10_unknown_queries _ ("nosuch") (by decide)).2.2.2.2⟩
